import Mathlib

/-!
Verification of the query-compilation core of the cozo repository.

The development shallowly embeds the three source files
`src/preprocess/query.rs`, `src/query/sort.rs` and `src/relation/data.rs`.
Collaborator code that lives in the repository but outside the provided
sources (the `Keyword` type, the `Relation` methods `bindings`,
`is_unit` and `eliminate_temp_vars` from `transact/query.rs`, the
attribute catalog, the `DerivedRelStore` temporary store and the
`DataValue` ordering) is modelled from the specification; each such
definition is marked `Modelled from the spec:` in its doc comment.
-/

namespace Cozo

/-- `Keyword` from `data/keyword.rs` (interned name).  Modelled from the
spec: a keyword is an interned name; synthetic keywords use the private
prefix `*` plus a per-compile counter.  We model keywords as plain
strings. -/
abbrev Keyword := String

/-- Modelled from the spec: a keyword is synthetic/ignored exactly when it
starts with the private sigil `*` (`format!("*{}", id_serial)` in
`compile_clauses`). -/
def Keyword.is_ignored_binding (k : Keyword) : Bool :=
  k.data.head? = some '*'

/-- The synthetic keyword produced by `next_ignored_kw` in
`compile_clauses` for counter value `n`: the string `*n`. -/
def ignoredKw (n : Nat) : Keyword :=
  String.mk ('*' :: (Nat.repr n).data)

/-- `EntityId` (`EntityId(u64)` newtype): an opaque identifier, `0` is the
not-found sentinel. -/
abbrev EntityId := Nat

/-- `Validity`: the bitemporal snapshot stamp.  Its internal structure is
irrelevant to compilation; we model it as an integer. -/
abbrev Validity := Int

/-- `DataValue` from `data/value.rs`.  Modelled from the spec: a tagged
union over entity references, primitive scalars, and a `Rev` wrapper
(`DataValue::Rev(Reverse(Box<DataValue>))`) that carries no identity of
its own and only inverts the ordering of the wrapped value.  One integer
scalar constructor stands for all primitive scalars. -/
inductive DataValue where
  | EnId (e : EntityId)
  | IntV (i : Int)
  | Rev (v : DataValue)
deriving DecidableEq, Repr

/-- Constructor discriminant, standing for the derived `Ord`'s variant
order on `DataValue`. -/
def DataValue.tag : DataValue → Nat
  | .EnId _ => 0
  | .IntV _ => 1
  | .Rev _ => 2

/-- Comparison on `Nat` written out explicitly. -/
def natCmp (a b : Nat) : Ordering :=
  if a < b then .lt else if b < a then .gt else .eq

/-- Comparison on `Int` written out explicitly. -/
def intCmp (a b : Int) : Ordering :=
  if a < b then .lt else if b < a then .gt else .eq

/-- Modelled from the spec: the derived total order on `DataValue`.
Values of distinct variants compare by variant order; `Rev a` against
`Rev b` inverts the ordering of the wrapped values, matching
`std::cmp::Reverse`. -/
def DataValue.cmp : DataValue → DataValue → Ordering
  | .EnId a, .EnId b => natCmp a b
  | .IntV a, .IntV b => intCmp a b
  | .Rev a, .Rev b => (DataValue.cmp a b).swap
  | a, b => natCmp a.tag b.tag

/-- `AttrValType` stands for the declared value type of an attribute
(`attr.val_type`).  Modelled from the spec: all the compiler needs is
whether the type is reference/entity-valued, plus an identity so that
distinct types coerce differently. -/
structure AttrValType where
  tyId : Nat
  ref_type : Bool
deriving DecidableEq, Repr

/-- `val_type.is_ref_type()` of the catalog collaborator. -/
def AttrValType.is_ref_type (t : AttrValType) : Bool := t.ref_type

/-- Modelled from the spec: the indexing mode of an attribute — at
minimum whether it is enforced as a unique index. -/
inductive AttrIndexing where
  | plain
  | unique
deriving DecidableEq, Repr

/-- `attr.indexing.is_unique_index()` of the catalog collaborator. -/
def AttrIndexing.is_unique_index : AttrIndexing → Bool
  | .plain => false
  | .unique => true

/-- `Attribute` from `data/attr.rs`.  Modelled from the spec: a catalog
entry with a declared value type and an indexing mode. -/
structure Attribute where
  keyword : Keyword
  val_type : AttrValType
  indexing : AttrIndexing
deriving DecidableEq, Repr

/-- `MaybeVariable<T>` from `preprocess/query.rs`. -/
inductive MaybeVariable (T : Type) where
  | Variable (k : Keyword)
  | Const (v : T)
deriving DecidableEq, Repr

/-- `AttrTripleClause` from `preprocess/query.rs`. -/
structure AttrTripleClause where
  attr : Attribute
  entity : MaybeVariable EntityId
  value : MaybeVariable DataValue
deriving DecidableEq, Repr

/-- `Clause` from `preprocess/query.rs` (one variant today). -/
inductive Clause where
  | AttrTriple (c : AttrTripleClause)
deriving DecidableEq, Repr

/-- `InlineFixedRelation` from `transact/query.rs` as used by
`compile_clauses`: explicit rows with named bindings. -/
structure InlineFixedRelation where
  bindings : List Keyword
  data : List (List DataValue)
  to_eliminate : List Keyword
deriving DecidableEq, Repr

/-- `TripleRelation` from `transact/query.rs` as used by
`compile_clauses`: an indexed scan of one attribute at one validity,
exposing the entity-slot and value-slot bindings in that order. -/
structure TripleRelation where
  attr : Attribute
  vld : Validity
  bindings : Keyword × Keyword
deriving DecidableEq, Repr

/-- `Joiner` from `transact/query.rs`: parallel lists of left/right join
keys. -/
structure Joiner where
  left_keys : List Keyword
  right_keys : List Keyword
deriving DecidableEq, Repr

/-- `Relation` from `transact/query.rs`.  Modelled from the spec: the
operator-tree vocabulary — unit, fixed/inline rows, indexed triple scan,
and binary inner equi-join carrying a set of binding names to drop from
the output schema.  The `join` constructor inlines the fields of
`InnerJoin` (`left`, `right`, `joiner`, `to_eliminate`). -/
inductive Relation where
  | unit
  | fixed (r : InlineFixedRelation)
  | triple (r : TripleRelation)
  | join (left : Relation) (right : Relation) (joiner : Joiner)
      (to_eliminate : List Keyword)
deriving DecidableEq, Repr

/-- `Relation::is_unit()`.  Modelled from the spec: recognises the unit
relation, compilation's identity/start value. -/
def Relation.is_unit : Relation → Bool
  | .unit => true
  | _ => false

/-- `Relation::bindings()`.  Modelled from the spec: the externally
visible schema — unit has no columns, a fixed relation exposes its
binding list, a triple scan exposes `[entity-slot, value-slot]`, and a
join exposes the concatenation of its children's schemas minus the
bindings listed in `to_eliminate`. -/
def Relation.bindings : Relation → List Keyword
  | .unit => []
  | .fixed r => r.bindings
  | .triple r => [r.bindings.1, r.bindings.2]
  | .join l r _ elim =>
      (l.bindings ++ r.bindings).filter (fun b => !(elim.contains b))

/-- Modelled from the spec: the cleanup pass behind
`Relation::eliminate_temp_vars()` (in `transact/query.rs`, outside the
provided sources).  Walking the tree top-down with the set `used` of
bindings still needed above, every join marks for elimination each
synthetic/ignored binding of its output that is not needed above; the
children are then processed with the join's own keys, plus the bindings
the join keeps, as their needed set.  Bare unit/fixed/triple nodes offer
no elimination point and are returned unchanged. -/
def Relation.elimPass (used : List Keyword) : Relation → Relation
  | .unit => .unit
  | .fixed r => .fixed r
  | .triple r => .triple r
  | .join l r j elim =>
      let own := l.bindings ++ r.bindings
      let newElim := elim ++ own.filter
        (fun b => b.is_ignored_binding && !(used.contains b) && !(elim.contains b))
      let kept := own.filter (fun b => !(newElim.contains b))
      .join (l.elimPass (j.left_keys ++ kept)) (r.elimPass (j.right_keys ++ kept))
        j newElim

/-- `ret.eliminate_temp_vars()`: the cleanup pass started with no binding
needed above. -/
def Relation.eliminate_temp_vars (r : Relation) : Relation :=
  r.elimPass []

/-- `JsonValue` (`serde_json::Value`) as consumed by the clause parser:
strings, unsigned integers, single-level objects (field lists, as
`serde_json::Map` iterates them), and a stand-in for every other JSON
shape.  `num n` answers `as_u64`; objects answer `as_object`. -/
inductive JsonValue where
  | str (s : String)
  | num (n : Nat)
  | obj (fields : List (String × JsonValue))
  | other (id : Nat)

/-- The error channel of the clause compiler/parser.  `QueryClauseError::
UnexpectedForm` and `TxError::AttrNotFound` are the defined errors;
`panicUnimplemented` marks the `unimplemented!()` / `todo!()` panics,
which in Rust abort the process rather than returning `Err`;
`coerceFail` stands for a value-type coercion failure raised by the
catalog collaborator. -/
inductive QErr where
  | unexpectedForm (payload : JsonValue) (msg : String)
  | attrNotFound (kw : Keyword)
  | coerceFail
  | panicUnimplemented

/-- The mutable compile-time state of `compile_clauses`: the running
relation `ret`, the set of user variables already bound
(`seen_variables`, queried only for membership), and the synthetic-name
counter `id_serial`. -/
structure CState where
  ret : Relation
  seen : List Keyword
  id_serial : Nat
deriving DecidableEq, Repr

/-- The initial compile state: `ret = Relation::unit()`, no seen
variables, counter `0`. -/
def initCState : CState := ⟨.unit, [], 0⟩

/-- The body of the `for clause in clauses` loop of `compile_clauses`
(`preprocess/query.rs` lines 76–268), one clause at a time.  The four
cases follow the source's four-way match on
`(a_triple.entity, a_triple.value)`; the `unimplemented!()` on the
self-referential variable/variable case becomes the
`panicUnimplemented` error. -/
def processClause (vld : Validity) (st : CState) (c : Clause) : Except QErr CState :=
  match c with
  | .AttrTriple a =>
    match a.entity, a.value with
    | .Const eid, .Variable v_kw =>
        let temp_join_key_left := ignoredKw st.id_serial
        let temp_join_key_right := ignoredKw (st.id_serial + 1)
        let const_rel : Relation :=
          .fixed ⟨[temp_join_key_left], [[DataValue.EnId eid]], []⟩
        let ret1 : Relation :=
          if st.ret.is_unit then const_rel
          else .join st.ret const_rel ⟨[], []⟩ []
        if st.seen.contains v_kw then
          let fresh := ignoredKw (st.id_serial + 2)
          let right : Relation := .triple ⟨a.attr, vld, (temp_join_key_right, fresh)⟩
          .ok ⟨.join ret1 right
                ⟨[temp_join_key_left, v_kw], [temp_join_key_right, fresh]⟩ [],
              st.seen, st.id_serial + 3⟩
        else
          let right : Relation := .triple ⟨a.attr, vld, (temp_join_key_right, v_kw)⟩
          .ok ⟨.join ret1 right ⟨[temp_join_key_left], [temp_join_key_right]⟩ [],
              v_kw :: st.seen, st.id_serial + 2⟩
    | .Variable e_kw, .Const val =>
        let temp_join_key_left := ignoredKw st.id_serial
        let temp_join_key_right := ignoredKw (st.id_serial + 1)
        let const_rel : Relation :=
          .fixed ⟨[temp_join_key_left], [[val]], []⟩
        let ret1 : Relation :=
          if st.ret.is_unit then const_rel
          else .join st.ret const_rel ⟨[], []⟩ []
        if st.seen.contains e_kw then
          let fresh := ignoredKw (st.id_serial + 2)
          let right : Relation := .triple ⟨a.attr, vld, (fresh, temp_join_key_right)⟩
          .ok ⟨.join ret1 right
                ⟨[temp_join_key_left, e_kw], [temp_join_key_right, fresh]⟩ [],
              st.seen, st.id_serial + 3⟩
        else
          let right : Relation := .triple ⟨a.attr, vld, (e_kw, temp_join_key_right)⟩
          .ok ⟨.join ret1 right ⟨[temp_join_key_left], [temp_join_key_right]⟩ [],
              e_kw :: st.seen, st.id_serial + 2⟩
    | .Variable e_kw, .Variable v_kw =>
        if e_kw = v_kw then .error .panicUnimplemented
        else
          let eSeen := st.seen.contains e_kw
          let ekw2 := if eSeen then ignoredKw st.id_serial else e_kw
          let seen1 := if eSeen then st.seen else e_kw :: st.seen
          let ser1 := if eSeen then st.id_serial + 1 else st.id_serial
          let lks1 : List Keyword := if eSeen then [e_kw] else []
          let rks1 : List Keyword := if eSeen then [ignoredKw st.id_serial] else []
          let vSeen := seen1.contains v_kw
          let vkw2 := if vSeen then ignoredKw ser1 else v_kw
          let seen2 := if vSeen then seen1 else v_kw :: seen1
          let ser2 := if vSeen then ser1 + 1 else ser1
          let lks2 := if vSeen then lks1 ++ [v_kw] else lks1
          let rks2 := if vSeen then rks1 ++ [ignoredKw ser1] else rks1
          let right : Relation := .triple ⟨a.attr, vld, (ekw2, vkw2)⟩
          if st.ret.is_unit then .ok ⟨right, seen2, ser2⟩
          else .ok ⟨.join st.ret right ⟨lks2, rks2⟩ [], seen2, ser2⟩
    | .Const eid, .Const val =>
        let left_var_1 := ignoredKw st.id_serial
        let left_var_2 := ignoredKw (st.id_serial + 1)
        let const_rel : Relation :=
          .fixed ⟨[left_var_1, left_var_2], [[DataValue.EnId eid, val]], []⟩
        let ret1 : Relation :=
          if st.ret.is_unit then const_rel
          else .join st.ret const_rel ⟨[], []⟩ []
        let right_var_1 := ignoredKw (st.id_serial + 2)
        let right_var_2 := ignoredKw (st.id_serial + 3)
        let right : Relation := .triple ⟨a.attr, vld, (right_var_1, right_var_2)⟩
        .ok ⟨.join ret1 right ⟨[left_var_1, left_var_2], [right_var_1, right_var_2]⟩ [],
            st.seen, st.id_serial + 4⟩

/-- `SessionTx::compile_clauses` (`preprocess/query.rs` lines 66–285):
fold the clauses into a relation tree starting from unit, run the
synthetic-binding elimination pass, and, when an ignored binding still
shows in the schema, wrap the tree in one trivial join against unit and
re-run the pass. -/
def compile_clauses (clauses : List Clause) (vld : Validity) : Except QErr Relation := do
  let st ← clauses.foldlM (processClause vld) initCState
  let ret := st.ret.eliminate_temp_vars
  let ret :=
    if ret.bindings.any (fun b => b.is_ignored_binding) then
      (Relation.join ret .unit ⟨[], []⟩ []).eliminate_temp_vars
    else ret
  pure ret

/-- The catalog/storage collaborators reachable through `SessionTx`
during clause parsing.  Modelled from the spec: attribute lookup by
name, value coercion to a declared type, unique-index point lookup (at a
validity), and the fixed reserved-word test on keywords.  All are
read-only. -/
structure SessionEnv where
  attr_by_kw : Keyword → Option Attribute
  coerce_value : AttrValType → JsonValue → Except QErr DataValue
  eid_by_unique_av : Attribute → DataValue → Validity → Option EntityId
  is_reserved : Keyword → Bool

/-- `s.starts_with(['?', '_'])`: the variable sigil test. -/
def startsWithVarSigil (s : String) : Bool :=
  s.data.head? = some '?' || s.data.head? = some '_'

/-- `SessionTx::parse_eid_from_map` (`preprocess/query.rs` lines
313–340): a single-field object is a unique-index lookup; the named
attribute must exist and be a unique index; the payload is coerced to
that attribute's declared type; a missing entity yields the sentinel
`EntityId(0)`. -/
def parse_eid_from_map (env : SessionEnv) (m : List (String × JsonValue))
    (vld : Validity) : Except QErr EntityId :=
  match m with
  | [(k, v)] =>
      let kw : Keyword := k
      match env.attr_by_kw kw with
      | none => .error (.attrNotFound kw)
      | some attr =>
          if !attr.indexing.is_unique_index then
            .error (.unexpectedForm (.obj m) "attribute is not a unique index")
          else do
            let value ← env.coerce_value attr.val_type v
            .ok ((env.eid_by_unique_av attr value vld).getD 0)
  | _ => .error (.unexpectedForm (.obj m) "expect object with exactly one field")

/-- `SessionTx::parse_value_from_map` (`preprocess/query.rs` lines
341–363): a single-field object whose key is literally `const` is an
explicit constant coerced to the clause attribute's declared type. -/
def parse_value_from_map (env : SessionEnv) (m : List (String × JsonValue))
    (attr : Attribute) : Except QErr DataValue :=
  match m with
  | [(k, v)] =>
      if k ≠ "const" then
        .error (.unexpectedForm (.obj m) "expect object with exactly one field named 'const'")
      else env.coerce_value attr.val_type v
  | _ => .error (.unexpectedForm (.obj m) "expect object with exactly one field")

/-- `SessionTx::parse_triple_clause_value` (`preprocess/query.rs` lines
364–393): sigil strings are variables, unquoted reserved strings fail;
an object is a unique-index entity lookup when the attribute is
reference-typed and the `const` escape otherwise; anything else is
coerced to the attribute's declared type. -/
def parse_triple_clause_value (env : SessionEnv) (value_rep : JsonValue)
    (attr : Attribute) (vld : Validity) : Except QErr (MaybeVariable DataValue) :=
  match value_rep with
  | .str s =>
      if startsWithVarSigil s then .ok (.Variable s)
      else if env.is_reserved s then
        .error (.unexpectedForm value_rep "reserved string values must be quoted")
      else (env.coerce_value attr.val_type value_rep).map .Const
  | .obj o =>
      if attr.val_type.is_ref_type then
        (parse_eid_from_map env o vld).map (fun eid => .Const (.EnId eid))
      else (parse_value_from_map env o attr).map .Const
  | _ => (env.coerce_value attr.val_type value_rep).map .Const

/-- `SessionTx::parse_triple_clause_entity` (`preprocess/query.rs` lines
394–419): sigil strings are variables, unquoted reserved strings fail,
unsigned integers are literal entity ids, objects are unique-index
lookups, and every remaining shape hits the `todo!()` panic. -/
def parse_triple_clause_entity (env : SessionEnv) (entity_rep : JsonValue)
    (vld : Validity) : Except QErr (MaybeVariable EntityId) :=
  match entity_rep with
  | .str s =>
      if startsWithVarSigil s then .ok (.Variable s)
      else if env.is_reserved s then
        .error (.unexpectedForm entity_rep "reserved string values must be quoted")
      else .error .panicUnimplemented
  | .num u => .ok (.Const u)
  | .obj o => (parse_eid_from_map env o vld).map .Const
  | .other _ => .error .panicUnimplemented

/-- `SessionTx::parse_triple_clause_attr` (`preprocess/query.rs` lines
420–433): the attribute position must be a plain name string resolving
in the catalog. -/
def parse_triple_clause_attr (env : SessionEnv) (attr_rep : JsonValue) :
    Except QErr Attribute :=
  match attr_rep with
  | .str s =>
      match env.attr_by_kw s with
      | none => .error (.attrNotFound s)
      | some attr => .ok attr
  | v => .error (.unexpectedForm v "expect attribute keyword")

/-- `SortDir` from `parse/query.rs`.  Modelled from the spec: ascending
or descending sort direction. -/
inductive SortDir where
  | Asc
  | Dsc
deriving DecidableEq, Repr

/-- `Symbol` from `data/symb.rs`: a column name.  Modelled from the
spec: an interned name, here a plain string. -/
abbrev Symbol := String

/-- `Tuple` from `data/tuple.rs`: one row, a vector of data values. -/
abbrev Tuple := List DataValue

/-- Lexicographic comparison of tuples: the derived `Ord` on
`Vec<DataValue>`. -/
def tupleCmp : Tuple → Tuple → Ordering
  | [], [] => .eq
  | [], _ :: _ => .lt
  | _ :: _, [] => .gt
  | a :: as_, b :: bs =>
      match a.cmp b with
      | .eq => tupleCmp as_ bs
      | o => o

/-- The `head_indices` lookup of `sort_and_collect`: the position of a
symbol in `head`.  `head.iter().enumerate().map(|(i,k)|(k,i))` collected
into a map keeps the last position of a duplicated symbol. -/
def headIndex (head : List Symbol) (k : Symbol) : Option Nat :=
  ((head.zip (List.range head.length)).filter (fun p => p.1 = k)).getLast?.map
    (fun p => p.2)

/-- Option-valued mapping over a list, failing on the first failure:
the `Option` effect of the iterator chains in `sort_and_collect`. -/
def optionMapList (f : A → Option B) : List A → Option (List B)
  | [] => some []
  | a :: l =>
      match f a with
      | none => none
      | some b =>
          match optionMapList f l with
          | none => none
          | some bs => some (b :: bs)

/-- The `idx_sorters` of `sort_and_collect`: each sorter symbol resolved
to its position in `head`; a missing symbol is the indexing panic of
`head_indices[k]`, modelled as `none`. -/
def mkIdxSorters (sorters : List (Symbol × SortDir)) (head : List Symbol) :
    Option (List (Nat × SortDir)) :=
  optionMapList (fun p => (headIndex head p.1).map (fun i => (i, p.2))) sorters

/-- The sorter-driven part of one row's sort key: the row's value at
each sorter index, wrapped in `DataValue::Rev` for a descending sorter.
An out-of-range index is the `tuple.0[*idx]` panic, modelled as
`none`. -/
def baseKey (idx_sorters : List (Nat × SortDir)) (t : Tuple) : Option Tuple :=
  optionMapList (fun p =>
    (t.get? p.1).map (fun v => if p.2 = SortDir.Dsc then DataValue.Rev v else v))
    idx_sorters

/-- The sort key built for one row at scan position `pos`: the sorter
values, with `DataValue::from(idx as i64)` pushed at the end. -/
def rowKey (idx_sorters : List (Nat × SortDir)) (pos : Nat) (t : Tuple) :
    Option Tuple :=
  (baseKey idx_sorters t).map (fun base => base ++ [DataValue.IntV (pos : Int)])

/-- Modelled from the spec: `DerivedRelStore.put_kv` into the freshly
created temp store, which is a key-ordered map — insertion into an
association list kept sorted by `tupleCmp` on the key, an equal key
being overwritten. -/
def insertKV (k : Tuple) (v : Tuple) : List (Tuple × Tuple) → List (Tuple × Tuple)
  | [] => [(k, v)]
  | (k1, v1) :: rest =>
      match tupleCmp k k1 with
      | .lt => (k, v) :: (k1, v1) :: rest
      | .eq => (k, v) :: rest
      | .gt => (k1, v1) :: insertKV k v rest

/-- The scan loop of `sort_and_collect`: rows are taken in scan order,
each keyed and put into the store. -/
def buildStore (idx_sorters : List (Nat × SortDir)) :
    Nat → List (Tuple × Tuple) → List Tuple → Option (List (Tuple × Tuple))
  | _, store, [] => some store
  | pos, store, t :: rest =>
      match rowKey idx_sorters pos t with
      | none => none
      | some k => buildStore idx_sorters (pos + 1) (insertKV k t store) rest

/-- `SessionTx::sort_and_collect` (`query/sort.rs` lines 15–44): resolve
the sorters against `head`, then key and store every scanned row.  The
result is the materialized store: key/row pairs in key order.  `none`
models the two panic sites (`head_indices[k]` on a missing symbol and
`tuple.0[*idx]` out of range). -/
def sort_and_collect (original : List Tuple) (sorters : List (Symbol × SortDir))
    (head : List Symbol) : Option (List (Tuple × Tuple)) :=
  match mkIdxSorters sorters head with
  | none => none
  | some idx_sorters => buildStore idx_sorters 0 [] original

/-- `DerivedRelStore.scan_all` on the materialized store: the rows in
key order. -/
def scanAll (store : List (Tuple × Tuple)) : List Tuple :=
  store.map (fun p => p.2)

/-- A clause whose entity and value positions are variables bound to the
same keyword — the case `compile_clauses` refuses. -/
def Clause.isSelfRef : Clause → Bool
  | .AttrTriple a =>
    match a.entity, a.value with
    | .Variable e_kw, .Variable v_kw => e_kw = v_kw
    | _, _ => false

/-- The variable keywords appearing across a clause list, in order of
occurrence (entity position before value position). -/
def clauseVars : List Clause → List Keyword
  | [] => []
  | .AttrTriple a :: rest =>
      (match a.entity with | .Variable k => [k] | .Const _ => []) ++
      (match a.value with | .Variable k => [k] | .Const _ => []) ++
      clauseVars rest

/-- Every triple-scan node of a relation tree carries the validity value
`vld`. -/
def Relation.allTriplesVld (vld : Validity) : Relation → Bool
  | .unit => true
  | .fixed _ => true
  | .triple t => t.vld = vld
  | .join l r _ _ => l.allTriplesVld vld && r.allTriplesVld vld

/-- A sample attribute for concrete witnesses: plain indexing,
non-reference value type. -/
def attrA : Attribute := ⟨":a", ⟨0, false⟩, .plain⟩

/-- A sample reference-typed attribute without a unique index. -/
def attrRef : Attribute := ⟨":r", ⟨1, true⟩, .plain⟩

/-- A sample reference-typed attribute carrying a unique index. -/
def attrUniq : Attribute := ⟨":u", ⟨2, true⟩, .unique⟩

/-- A catalog environment with an empty catalog: every attribute lookup
misses, every coercion fails, every unique lookup misses. -/
def envNone : SessionEnv :=
  ⟨fun _ => none, fun _ _ => .error .coerceFail, fun _ _ _ => none, fun _ => false⟩

/-- A small concrete catalog environment: `:u` is a unique-indexed
reference attribute, `:r` a non-unique reference attribute, `:a` a plain
scalar attribute; every coercion returns the integer `0`; every unique
lookup misses. -/
def envCat : SessionEnv :=
  ⟨fun k => if k = ":u" then some attrUniq
    else if k = ":r" then some attrRef
    else if k = ":a" then some attrA
    else none,
   fun _ _ => .ok (.IntV 0),
   fun _ _ _ => none,
   fun _ => false⟩

end Cozo

namespace Cozo

/-! Lemmas about the compile loop. -/

theorem processClause_ok_of_not_selfRef (vld : Validity) (st : CState) (c : Clause)
    (h : c.isSelfRef = false) : ∃ st2, processClause vld st c = .ok st2 := by
  obtain ⟨a⟩ := c
  obtain ⟨attr, ent, val⟩ := a
  cases ent <;> cases val <;>
    simp only [processClause] <;>
    first
      | exact ⟨_, rfl⟩
      | (simp only [Clause.isSelfRef] at h
         rw [if_neg (by simpa using h)]
         split <;> exact ⟨_, rfl⟩)
      | (split <;> exact ⟨_, rfl⟩)

theorem processClause_err_of_selfRef (vld : Validity) (st : CState) (c : Clause)
    (h : c.isSelfRef = true) : processClause vld st c = .error .panicUnimplemented := by
  obtain ⟨a⟩ := c
  obtain ⟨attr, ent, val⟩ := a
  cases ent <;> cases val <;> simp [Clause.isSelfRef] at h
  simp only [processClause]
  rw [if_pos h]

theorem exceptFoldCons {ε α β : Type} (f : β → α → Except ε β) (b : β) (a : α)
    (l : List α) :
    List.foldlM f b (a :: l) = Except.bind (f b a) (fun b2 => List.foldlM f b2 l) := rfl

theorem monad_bind_ok {ε α β : Type} (a : α) (f : α → Except ε β) :
    (do let x ← (Except.ok a : Except ε α); f x) = f a := rfl

theorem foldlM_err_of_selfRef (vld : Validity) :
    ∀ (clauses : List Clause) (st : CState),
      (∃ c ∈ clauses, c.isSelfRef = true) →
      clauses.foldlM (processClause vld) st = .error .panicUnimplemented := by
  intro clauses
  induction clauses with
  | nil => intro st h; simp at h
  | cons c rest ih =>
      intro st h
      rcases h with ⟨c0, hmem, hsr⟩
      rw [exceptFoldCons]
      rcases List.mem_cons.mp hmem with hc | hc
      · subst hc
        rw [processClause_err_of_selfRef vld st c0 hsr]
        rfl
      · by_cases hcsr : c.isSelfRef = true
        · rw [processClause_err_of_selfRef vld st c hcsr]
          rfl
        · obtain ⟨st2, hok⟩ :=
            processClause_ok_of_not_selfRef vld st c (by simpa using hcsr)
          rw [hok]
          exact ih st2 ⟨c0, hc, hsr⟩

theorem allTriplesVld_elimPass (vld : Validity) :
    ∀ (r : Relation) (used : List Keyword),
      (r.elimPass used).allTriplesVld vld = r.allTriplesVld vld := by
  intro r
  induction r with
  | unit => intro used; rfl
  | fixed r => intro used; rfl
  | triple r => intro used; rfl
  | join l r j elim ihl ihr =>
      intro used
      simp only [Relation.elimPass, Relation.allTriplesVld, ihl, ihr]

theorem processClause_allTriplesVld (vld : Validity) (st st2 : CState) (c : Clause)
    (hok : processClause vld st c = .ok st2)
    (h : st.ret.allTriplesVld vld = true) : st2.ret.allTriplesVld vld = true := by
  obtain ⟨a⟩ := c
  obtain ⟨attr, ent, val⟩ := a
  cases ent <;> cases val <;>
    simp only [processClause] at hok <;>
    (repeat' split at hok) <;>
    first
      | (injection hok with h2
         subst h2
         simp_all [Relation.allTriplesVld])
      | simp at hok

theorem foldlM_allTriplesVld (vld : Validity) :
    ∀ (clauses : List Clause) (st st2 : CState),
      clauses.foldlM (processClause vld) st = .ok st2 →
      st.ret.allTriplesVld vld = true → st2.ret.allTriplesVld vld = true := by
  intro clauses
  induction clauses with
  | nil =>
      intro st st2 hok h
      simp only [List.foldlM] at hok
      cases hok
      exact h
  | cons c rest ih =>
      intro st st2 hok h
      rw [exceptFoldCons] at hok
      cases hc : processClause vld st c with
      | error e => rw [hc] at hok; exact absurd hok (by simp [Except.bind])
      | ok stm =>
          rw [hc] at hok
          exact ih stm st2 hok (processClause_allTriplesVld vld st stm c hc h)

theorem compile_clauses_eq_of_fold (clauses : List Clause) (vld : Validity)
    (st : CState) (hst : clauses.foldlM (processClause vld) initCState = .ok st) :
    compile_clauses clauses vld = .ok
      (if (st.ret.eliminate_temp_vars).bindings.any (fun b => b.is_ignored_binding) then
        (Relation.join st.ret.eliminate_temp_vars .unit ⟨[], []⟩ []).eliminate_temp_vars
      else st.ret.eliminate_temp_vars) := by
  unfold compile_clauses
  rw [hst]
  rfl

theorem compile_clauses_err_of_fold (clauses : List Clause) (vld : Validity)
    (e : QErr) (hst : clauses.foldlM (processClause vld) initCState = .error e) :
    compile_clauses clauses vld = .error e := by
  unfold compile_clauses
  rw [hst]
  rfl

/-! Claim theorems for the join-tree compiler. -/

/-- C9: `compile_clauses` applied to the empty clause list returns `Ok`
with the Unit relation — the cardinality-one relation with an empty
schema — and the post-compile normalizer (`eliminate_temp_vars`) leaves
it unchanged. -/
theorem compile_clauses_nil_is_unit (vld : Validity) :
    compile_clauses [] vld = .ok .unit ∧ Relation.unit.bindings = [] ∧
      Relation.unit.eliminate_temp_vars = .unit :=
  ⟨rfl, rfl, rfl⟩

/-- C3 counterexample: a clause whose entity and value are the same
variable does not produce the defined unsupported-self-referential
error result — the compiler hits the bare `unimplemented!()` stub,
which panics (modelled as the `panicUnimplemented` marker, distinct
from every `QueryClauseError`). -/
theorem selfRef_clause_panics_counterexample :
    compile_clauses
        [.AttrTriple ⟨⟨":a", ⟨0, false⟩, .plain⟩, .Variable "?x", .Variable "?x"⟩] 0 =
      .error .panicUnimplemented := rfl

/-- C3 (amended): for every clause list containing a clause whose entity
and value positions are variables bound to the same keyword,
`compile_clauses` aborts through the `unimplemented!()` panic stub — it
never silently accepts the clause list, but the rejection is a panic,
not a defined error result. -/
theorem compile_clauses_selfRef_rejected (clauses : List Clause) (vld : Validity)
    (h : ∃ c ∈ clauses, c.isSelfRef = true) :
    compile_clauses clauses vld = .error .panicUnimplemented :=
  compile_clauses_err_of_fold clauses vld .panicUnimplemented
    (foldlM_err_of_selfRef vld clauses initCState h)

/-- C3 witness: the amended theorem applies to a concrete clause list. -/
theorem compile_clauses_selfRef_rejected_witness :
    compile_clauses
        [.AttrTriple ⟨attrA, .Const 3, .Variable "?z"⟩,
         .AttrTriple ⟨attrA, .Variable "?y", .Variable "?y"⟩] 5 =
      .error .panicUnimplemented :=
  compile_clauses_selfRef_rejected _ 5
    ⟨.AttrTriple ⟨attrA, .Variable "?y", .Variable "?y"⟩, by simp, rfl⟩

/-- C6: every relation returned by one `compile_clauses` call at
validity `vld` stamps that same `vld` on every Triple scan node of the
tree, so the whole plan reads one point-in-time snapshot. -/
theorem compile_clauses_single_validity (clauses : List Clause) (vld : Validity)
    (r : Relation) (h : compile_clauses clauses vld = .ok r) :
    r.allTriplesVld vld = true := by
  cases hst : clauses.foldlM (processClause vld) initCState with
  | error e =>
      rw [compile_clauses_err_of_fold clauses vld e hst] at h
      exact absurd h (by simp)
  | ok st =>
      rw [compile_clauses_eq_of_fold clauses vld st hst] at h
      have hret : st.ret.allTriplesVld vld = true :=
        foldlM_allTriplesVld vld clauses initCState st hst rfl
      injection h with h2
      subst h2
      split
      · rw [Relation.eliminate_temp_vars, allTriplesVld_elimPass]
        simp only [Relation.allTriplesVld, Relation.eliminate_temp_vars,
          allTriplesVld_elimPass, hret]
        rfl
      · rw [Relation.eliminate_temp_vars, allTriplesVld_elimPass]
        exact hret

/-- C6 witness: the single-validity theorem applies to a concrete
compile at validity `7`. -/
theorem compile_clauses_single_validity_witness :
    Relation.allTriplesVld 7
        (.join (.fixed ⟨["*0"], [[.EnId 1]], []⟩)
          (.triple ⟨attrA, 7, ("*1", "?x")⟩) ⟨["*0"], ["*1"]⟩ ["*0", "*1"]) = true :=
  compile_clauses_single_validity
    [.AttrTriple ⟨attrA, .Const 1, .Variable "?x"⟩] 7 _ rfl

/-! Lemmas about the synthetic-binding elimination pass. -/

theorem ignoredKw_ignored (n : Nat) : (ignoredKw n).is_ignored_binding = true := rfl

theorem ignoredKw_ne (k : Keyword) (n : Nat) (h : k.is_ignored_binding = false) :
    ignoredKw n ≠ k := by
  intro he
  rw [← he] at h
  simp [ignoredKw, Keyword.is_ignored_binding] at h

theorem not_contains_of_not_mem {l : List Keyword} {b : Keyword} (h : b ∉ l) :
    (!(l.contains b)) = true := by
  cases hc : l.contains b with
  | false => rfl
  | true => exact absurd (List.elem_iff.mp hc) h

theorem not_mem_of_not_contains {l : List Keyword} {b : Keyword}
    (h : (!(l.contains b)) = true) : b ∉ l := by
  intro hb
  rw [Bool.not_eq_true'] at h
  have h2 : l.contains b = true := List.elem_iff.mpr hb
  rw [h2] at h
  cases h

theorem bindings_of_is_unit (s : Relation) (h : s.is_unit = true) :
    s.bindings = [] := by
  cases s <;> first | rfl | simp [Relation.is_unit] at h

theorem count_filter_not_contains (k : Keyword) (ys els : List Keyword) (h : k ∉ els) :
    List.count k (ys.filter (fun b => !(els.contains b))) = List.count k ys :=
  List.count_filter (not_contains_of_not_mem h)

theorem bindings_constStep (s : Relation) (fr : InlineFixedRelation) :
    (if s.is_unit = true then Relation.fixed fr
      else Relation.join s (.fixed fr) ⟨[], []⟩ []).bindings =
      s.bindings ++ fr.bindings := by
  cases s <;> simp [Relation.is_unit, Relation.bindings]

theorem bindings_join_no_elim (s x : Relation) (j : Joiner) :
    (Relation.join s x j []).bindings = s.bindings ++ x.bindings := by
  simp [Relation.bindings]

theorem mem_newElim_of_ignored (own elim used : List Keyword) (b : Keyword)
    (hib : b.is_ignored_binding = true) (hbu : b ∉ used) (hbo : b ∈ own) :
    b ∈ elim ++ own.filter
      (fun x => x.is_ignored_binding && !(used.contains x) && !(elim.contains x)) := by
  by_cases hbe : b ∈ elim
  · exact List.mem_append.mpr (.inl hbe)
  · refine List.mem_append.mpr (.inr (List.mem_filter.mpr ⟨hbo, ?_⟩))
    simp [hib, hbe, hbu]

theorem mem_bindings_elimPass :
    ∀ (r : Relation) (used : List Keyword) (b : Keyword),
      b ∈ (r.elimPass used).bindings → b ∈ r.bindings := by
  intro r
  induction r with
  | unit => intro used b h; exact h
  | fixed rr => intro used b h; exact h
  | triple rr => intro used b h; exact h
  | join l r j elim ihl ihr =>
      intro used b h
      simp only [Relation.elimPass, Relation.bindings] at h ⊢
      rcases List.mem_filter.mp h with ⟨hmem, hne⟩
      have hnotin := not_mem_of_not_contains hne
      have hbelim : b ∉ elim := fun hb => hnotin (List.mem_append.mpr (.inl hb))
      rcases List.mem_append.mp hmem with h1 | h1
      · exact List.mem_filter.mpr
          ⟨List.mem_append.mpr (.inl (ihl _ b h1)), not_contains_of_not_mem hbelim⟩
      · exact List.mem_filter.mpr
          ⟨List.mem_append.mpr (.inr (ihr _ b h1)), not_contains_of_not_mem hbelim⟩

theorem ignored_not_mem_elimPass_join (l r : Relation) (j : Joiner)
    (elim used : List Keyword) (b : Keyword)
    (hib : b.is_ignored_binding = true) (hbu : b ∉ used) :
    b ∉ ((Relation.join l r j elim).elimPass used).bindings := by
  intro h
  simp only [Relation.elimPass, Relation.bindings] at h
  rcases List.mem_filter.mp h with ⟨hmem, hne⟩
  have hbo : b ∈ l.bindings ++ r.bindings := by
    rcases List.mem_append.mp hmem with h1 | h1
    · exact List.mem_append.mpr (.inl (mem_bindings_elimPass l _ b h1))
    · exact List.mem_append.mpr (.inr (mem_bindings_elimPass r _ b h1))
  have hnew := mem_newElim_of_ignored (l.bindings ++ r.bindings) elim used b hib hbu hbo
  exact not_mem_of_not_contains hne hnew

theorem count_bindings_elimPass (k : Keyword) (hk : k.is_ignored_binding = false) :
    ∀ (r : Relation) (used : List Keyword),
      ((r.elimPass used).bindings).count k = (r.bindings).count k := by
  intro r
  induction r with
  | unit => intro used; rfl
  | fixed rr => intro used; rfl
  | triple rr => intro used; rfl
  | join l r j elim ihl ihr =>
      intro used
      simp only [Relation.elimPass, Relation.bindings]
      by_cases hke : k ∈ elim
      · have hgen : ∀ (ys els : List Keyword), k ∈ els →
            List.count k (ys.filter (fun b => !(els.contains b))) = 0 := by
          intro ys els hks
          refine List.count_eq_zero.mpr ?_
          intro hmem
          exact not_mem_of_not_contains (List.mem_filter.mp hmem).2 hks
        rw [hgen _ _ (List.mem_append.mpr (.inl hke)), hgen _ _ hke]
      · have hknew : k ∉ elim ++ (l.bindings ++ r.bindings).filter
            (fun x => x.is_ignored_binding && !(used.contains x) && !(elim.contains x)) := by
          intro hmem
          rcases List.mem_append.mp hmem with h1 | h1
          · exact hke h1
          · have h3 := (List.mem_filter.mp h1).2
            simp [hk] at h3
        rw [count_filter_not_contains _ _ _ hknew,
          count_filter_not_contains _ _ _ hke,
          List.count_append, List.count_append, ihl, ihr]

/-! The count invariant maintained by the compile loop: every
non-synthetic keyword shows in the running schema exactly once if
already seen and never otherwise. -/

theorem processClause_count_case1 (vld : Validity) (st st2 : CState)
    (attr : Attribute) (eid : EntityId) (v_kw : Keyword)
    (hok : processClause vld st (.AttrTriple ⟨attr, .Const eid, .Variable v_kw⟩) = .ok st2)
    (hinv : ∀ k : Keyword, k.is_ignored_binding = false →
      st.ret.bindings.count k = if k ∈ st.seen then 1 else 0) :
    (∀ k : Keyword, k.is_ignored_binding = false →
      st2.ret.bindings.count k = if k ∈ st2.seen then 1 else 0)
    ∧ (∀ k : Keyword, k ∈ st2.seen ↔ k = v_kw ∨ k ∈ st.seen) := by
  simp only [processClause] at hok
  by_cases hseen : st.seen.contains v_kw = true
  · rw [if_pos hseen] at hok
    injection hok with h2
    subst h2
    have hv : v_kw ∈ st.seen := List.elem_iff.mp hseen
    refine ⟨fun k hk => ?_, fun k => ?_⟩
    · rw [bindings_join_no_elim, bindings_constStep]
      have e1 := ignoredKw_ne k st.id_serial hk
      have e2 := ignoredKw_ne k (st.id_serial + 1) hk
      have e3 := ignoredKw_ne k (st.id_serial + 2) hk
      simp [Relation.bindings, List.count_append, List.count_cons, e1, e2, e3,
        hinv k hk]
    · exact ⟨fun h => .inr h, fun h => h.elim (fun he => he ▸ hv) id⟩
  · rw [if_neg hseen] at hok
    injection hok with h2
    subst h2
    have hv : v_kw ∉ st.seen := fun hm =>
      hseen (List.elem_iff.mpr hm)
    refine ⟨fun k hk => ?_, fun k => ?_⟩
    · rw [bindings_join_no_elim, bindings_constStep]
      have e1 := ignoredKw_ne k st.id_serial hk
      have e2 := ignoredKw_ne k (st.id_serial + 1) hk
      by_cases hkv : v_kw = k
      · subst hkv
        simp [Relation.bindings, List.count_append, List.count_cons, e1, e2,
          hinv _ hk, hv]
      · simp [Relation.bindings, List.count_append, List.count_cons, e1, e2,
          hinv k hk, hkv, Ne.symm hkv]
    · simp [List.mem_cons, eq_comm]

theorem processClause_count_case2 (vld : Validity) (st st2 : CState)
    (attr : Attribute) (dv : DataValue) (e_kw : Keyword)
    (hok : processClause vld st (.AttrTriple ⟨attr, .Variable e_kw, .Const dv⟩) = .ok st2)
    (hinv : ∀ k : Keyword, k.is_ignored_binding = false →
      st.ret.bindings.count k = if k ∈ st.seen then 1 else 0) :
    (∀ k : Keyword, k.is_ignored_binding = false →
      st2.ret.bindings.count k = if k ∈ st2.seen then 1 else 0)
    ∧ (∀ k : Keyword, k ∈ st2.seen ↔ k = e_kw ∨ k ∈ st.seen) := by
  simp only [processClause] at hok
  by_cases hseen : st.seen.contains e_kw = true
  · rw [if_pos hseen] at hok
    injection hok with h2
    subst h2
    have hv : e_kw ∈ st.seen := List.elem_iff.mp hseen
    refine ⟨fun k hk => ?_, fun k => ?_⟩
    · rw [bindings_join_no_elim, bindings_constStep]
      have e1 := ignoredKw_ne k st.id_serial hk
      have e2 := ignoredKw_ne k (st.id_serial + 1) hk
      have e3 := ignoredKw_ne k (st.id_serial + 2) hk
      simp [Relation.bindings, List.count_append, List.count_cons, e1, e2, e3,
        hinv k hk]
    · exact ⟨fun h => .inr h, fun h => h.elim (fun he => he ▸ hv) id⟩
  · rw [if_neg hseen] at hok
    injection hok with h2
    subst h2
    have hv : e_kw ∉ st.seen := fun hm =>
      hseen (List.elem_iff.mpr hm)
    refine ⟨fun k hk => ?_, fun k => ?_⟩
    · rw [bindings_join_no_elim, bindings_constStep]
      have e1 := ignoredKw_ne k st.id_serial hk
      have e2 := ignoredKw_ne k (st.id_serial + 1) hk
      by_cases hkv : e_kw = k
      · subst hkv
        simp [Relation.bindings, List.count_append, List.count_cons, e1, e2,
          hinv _ hk, hv]
      · simp [Relation.bindings, List.count_append, List.count_cons, e1, e2,
          hinv k hk, hkv, Ne.symm hkv]
    · simp [List.mem_cons, eq_comm]

theorem bindings_unit_triple (s : Relation) (hu : s.is_unit = true)
    (tr : TripleRelation) :
    (Relation.triple tr).bindings = s.bindings ++ [tr.bindings.1, tr.bindings.2] := by
  rw [bindings_of_is_unit s hu]
  rfl

theorem processClause_count_case4 (vld : Validity) (st st2 : CState)
    (attr : Attribute) (eid : EntityId) (dv : DataValue)
    (hok : processClause vld st (.AttrTriple ⟨attr, .Const eid, .Const dv⟩) = .ok st2)
    (hinv : ∀ k : Keyword, k.is_ignored_binding = false →
      st.ret.bindings.count k = if k ∈ st.seen then 1 else 0) :
    (∀ k : Keyword, k.is_ignored_binding = false →
      st2.ret.bindings.count k = if k ∈ st2.seen then 1 else 0)
    ∧ (∀ k : Keyword, k ∈ st2.seen ↔ k ∈ st.seen) := by
  simp only [processClause] at hok
  injection hok with h2
  subst h2
  refine ⟨fun k hk => ?_, fun k => Iff.rfl⟩
  rw [bindings_join_no_elim, bindings_constStep]
  have e1 := ignoredKw_ne k st.id_serial hk
  have e2 := ignoredKw_ne k (st.id_serial + 1) hk
  have e3 := ignoredKw_ne k (st.id_serial + 2) hk
  have e4 := ignoredKw_ne k (st.id_serial + 3) hk
  simp [Relation.bindings, List.count_append, List.count_cons, e1, e2, e3, e4,
    hinv k hk]

theorem processClause_count_case3 (vld : Validity) (st st2 : CState)
    (attr : Attribute) (e_kw v_kw : Keyword)
    (hok : processClause vld st (.AttrTriple ⟨attr, .Variable e_kw, .Variable v_kw⟩) = .ok st2)
    (hinv : ∀ k : Keyword, k.is_ignored_binding = false →
      st.ret.bindings.count k = if k ∈ st.seen then 1 else 0) :
    (∀ k : Keyword, k.is_ignored_binding = false →
      st2.ret.bindings.count k = if k ∈ st2.seen then 1 else 0)
    ∧ (∀ k : Keyword, k ∈ st2.seen ↔ k = e_kw ∨ k = v_kw ∨ k ∈ st.seen) := by
  simp only [processClause] at hok
  by_cases hev : e_kw = v_kw
  · rw [if_pos hev] at hok
    cases hok
  rw [if_neg hev] at hok
  by_cases heS : st.seen.contains e_kw = true
  · simp only [heS, if_true] at hok
    by_cases hvS : st.seen.contains v_kw = true
    · simp only [hvS, if_true] at hok
      have hme : e_kw ∈ st.seen := List.elem_iff.mp heS
      have hmv : v_kw ∈ st.seen := List.elem_iff.mp hvS
      by_cases hu : st.ret.is_unit = true
      · simp only [hu, if_true] at hok
        injection hok with h2
        subst h2
        refine ⟨fun k hk => ?_, fun k => ?_⟩
        · rw [bindings_unit_triple st.ret hu]
          have e1 := ignoredKw_ne k st.id_serial hk
          have e2 := ignoredKw_ne k (st.id_serial + 1) hk
          simp [List.count_append, List.count_cons, e1, e2, hinv k hk]
        · exact ⟨fun h => .inr (.inr h),
            fun h => h.elim (fun he => he ▸ hme) (fun h => h.elim (fun hv => hv ▸ hmv) id)⟩
      · simp only [hu, if_false] at hok
        injection hok with h2
        subst h2
        refine ⟨fun k hk => ?_, fun k => ?_⟩
        · rw [bindings_join_no_elim]
          have e1 := ignoredKw_ne k st.id_serial hk
          have e2 := ignoredKw_ne k (st.id_serial + 1) hk
          simp [Relation.bindings, List.count_append, List.count_cons, e1, e2,
            hinv k hk]
        · exact ⟨fun h => .inr (.inr h),
            fun h => h.elim (fun he => he ▸ hme) (fun h => h.elim (fun hv => hv ▸ hmv) id)⟩
    · simp only [hvS, if_false] at hok
      have hme : e_kw ∈ st.seen := List.elem_iff.mp heS
      have hmv : v_kw ∉ st.seen := fun hm => hvS (List.elem_iff.mpr hm)
      by_cases hu : st.ret.is_unit = true
      · simp only [hu, if_true] at hok
        injection hok with h2
        subst h2
        refine ⟨fun k hk => ?_, fun k => ?_⟩
        · rw [bindings_unit_triple st.ret hu]
          have e1 := ignoredKw_ne k st.id_serial hk
          by_cases hkv : v_kw = k
          · subst hkv
            simp [List.count_append, List.count_cons, e1, hinv _ hk, hmv]
          · simp [List.count_append, List.count_cons, e1, hinv k hk, hkv,
              Ne.symm hkv]
        · simp [List.mem_cons, hme, eq_comm]
          intro he
          subst he
          simp [hme]
      · simp only [hu, if_false] at hok
        injection hok with h2
        subst h2
        refine ⟨fun k hk => ?_, fun k => ?_⟩
        · rw [bindings_join_no_elim]
          have e1 := ignoredKw_ne k st.id_serial hk
          by_cases hkv : v_kw = k
          · subst hkv
            simp [Relation.bindings, List.count_append, List.count_cons, e1,
              hinv _ hk, hmv]
          · simp [Relation.bindings, List.count_append, List.count_cons, e1,
              hinv k hk, hkv, Ne.symm hkv]
        · simp [List.mem_cons, hme, eq_comm]
          intro he
          subst he
          simp [hme]
  · rw [Bool.not_eq_true] at heS
    simp only [heS, Bool.false_eq_true, if_false] at hok
    have hme : e_kw ∉ st.seen := fun hm => by
      have h3 : st.seen.contains e_kw = true := List.elem_iff.mpr hm
      rw [h3] at heS
      cases heS
    by_cases hvS : (e_kw :: st.seen).contains v_kw = true
    · simp only [hvS, if_true] at hok
      have hmv : v_kw ∈ st.seen := by
        rcases List.mem_cons.mp (List.elem_iff.mp hvS) with h | h
        · exact absurd h.symm hev
        · exact h
      by_cases hu : st.ret.is_unit = true
      · simp only [hu, if_true] at hok
        injection hok with h2
        subst h2
        refine ⟨fun k hk => ?_, fun k => ?_⟩
        · rw [bindings_unit_triple st.ret hu]
          have e1 := ignoredKw_ne k st.id_serial hk
          by_cases hke : e_kw = k
          · subst hke
            simp [List.count_append, List.count_cons, e1, hinv _ hk, hme]
          · simp [List.count_append, List.count_cons, e1, hinv k hk, hke,
              Ne.symm hke]
        · rw [List.mem_cons]
          exact ⟨fun h => h.elim (fun he => .inl he) (fun h2 => .inr (.inr h2)),
            fun h => h.elim (fun he => .inl he)
              (fun h2 => h2.elim (fun hv => .inr (by rw [hv]; exact hmv))
                (fun h3 => .inr h3))⟩
      · rw [Bool.not_eq_true] at hu
        simp only [hu, Bool.false_eq_true, if_false] at hok
        injection hok with h2
        subst h2
        refine ⟨fun k hk => ?_, fun k => ?_⟩
        · rw [bindings_join_no_elim]
          have e1 := ignoredKw_ne k st.id_serial hk
          by_cases hke : e_kw = k
          · subst hke
            simp [Relation.bindings, List.count_append, List.count_cons, e1,
              hinv _ hk, hme]
          · simp [Relation.bindings, List.count_append, List.count_cons, e1,
              hinv k hk, hke, Ne.symm hke]
        · rw [List.mem_cons]
          exact ⟨fun h => h.elim (fun he => .inl he) (fun h2 => .inr (.inr h2)),
            fun h => h.elim (fun he => .inl he)
              (fun h2 => h2.elim (fun hv => .inr (by rw [hv]; exact hmv))
                (fun h3 => .inr h3))⟩
    · rw [Bool.not_eq_true] at hvS
      simp only [hvS, Bool.false_eq_true, if_false] at hok
      have hmv : v_kw ∉ st.seen := fun hm => by
        have h3 : (e_kw :: st.seen).contains v_kw = true :=
          List.elem_iff.mpr (List.mem_cons.mpr (.inr hm))
        rw [h3] at hvS
        cases hvS
      by_cases hu : st.ret.is_unit = true
      · simp only [hu, if_true] at hok
        injection hok with h2
        subst h2
        refine ⟨fun k hk => ?_, fun k => ?_⟩
        · rw [bindings_unit_triple st.ret hu]
          by_cases hke : e_kw = k
          · subst hke
            simp [List.count_append, List.count_cons, hinv _ hk, hme,
              hev, Ne.symm hev]
          · by_cases hkv : v_kw = k
            · subst hkv
              simp [List.count_append, List.count_cons, hinv _ hk, hmv, hke]
            · simp [List.count_append, List.count_cons, hinv k hk, hke, hkv,
                Ne.symm hke, Ne.symm hkv]
        · rw [List.mem_cons, List.mem_cons]
          exact ⟨fun h => h.elim (fun hv => .inr (.inl hv))
              (fun h2 => h2.elim (fun he => .inl he) (fun h3 => .inr (.inr h3))),
            fun h => h.elim (fun he => .inr (.inl he))
              (fun h2 => h2.elim (fun hv => .inl hv) (fun h3 => .inr (.inr h3)))⟩
      · rw [Bool.not_eq_true] at hu
        simp only [hu, Bool.false_eq_true, if_false] at hok
        injection hok with h2
        subst h2
        refine ⟨fun k hk => ?_, fun k => ?_⟩
        · rw [bindings_join_no_elim]
          by_cases hke : e_kw = k
          · subst hke
            simp [Relation.bindings, List.count_append, List.count_cons,
              hinv _ hk, hme, hev, Ne.symm hev]
          · by_cases hkv : v_kw = k
            · subst hkv
              simp [Relation.bindings, List.count_append, List.count_cons,
                hinv _ hk, hmv, hke]
            · simp [Relation.bindings, List.count_append, List.count_cons,
                hinv k hk, hke, hkv, Ne.symm hke, Ne.symm hkv]
        · rw [List.mem_cons, List.mem_cons]
          exact ⟨fun h => h.elim (fun hv => .inr (.inl hv))
              (fun h2 => h2.elim (fun he => .inl he) (fun h3 => .inr (.inr h3))),
            fun h => h.elim (fun he => .inr (.inl he))
              (fun h2 => h2.elim (fun hv => .inl hv) (fun h3 => .inr (.inr h3)))⟩

theorem processClause_count (vld : Validity) (st st2 : CState) (c : Clause)
    (hok : processClause vld st c = .ok st2)
    (hinv : ∀ k : Keyword, k.is_ignored_binding = false →
      st.ret.bindings.count k = if k ∈ st.seen then 1 else 0) :
    (∀ k : Keyword, k.is_ignored_binding = false →
      st2.ret.bindings.count k = if k ∈ st2.seen then 1 else 0)
    ∧ (∀ k : Keyword, k ∈ st2.seen ↔ k ∈ clauseVars [c] ∨ k ∈ st.seen) := by
  obtain ⟨a⟩ := c
  obtain ⟨attr, ent, val⟩ := a
  cases ent with
  | Const eid =>
      cases val with
      | Variable v_kw =>
          have h := processClause_count_case1 vld st st2 attr eid v_kw hok hinv
          exact ⟨h.1, fun k => by rw [h.2 k]; simp [clauseVars]⟩
      | Const dv =>
          have h := processClause_count_case4 vld st st2 attr eid dv hok hinv
          exact ⟨h.1, fun k => by rw [h.2 k]; simp [clauseVars]⟩
  | Variable e_kw =>
      cases val with
      | Const dv =>
          have h := processClause_count_case2 vld st st2 attr dv e_kw hok hinv
          exact ⟨h.1, fun k => by rw [h.2 k]; simp [clauseVars]⟩
      | Variable v_kw =>
          have h := processClause_count_case3 vld st st2 attr e_kw v_kw hok hinv
          exact ⟨h.1, fun k => by rw [h.2 k]; simp [clauseVars, or_assoc]⟩

theorem foldlM_count (vld : Validity) :
    ∀ (clauses : List Clause) (st st2 : CState),
      clauses.foldlM (processClause vld) st = .ok st2 →
      (∀ k : Keyword, k.is_ignored_binding = false →
        st.ret.bindings.count k = if k ∈ st.seen then 1 else 0) →
      (∀ k : Keyword, k.is_ignored_binding = false →
        st2.ret.bindings.count k = if k ∈ st2.seen then 1 else 0)
      ∧ (∀ k : Keyword, k ∈ st2.seen ↔ k ∈ clauseVars clauses ∨ k ∈ st.seen) := by
  intro clauses
  induction clauses with
  | nil =>
      intro st st2 hok hinv
      simp only [List.foldlM] at hok
      injection hok with h2
      subst h2
      exact ⟨hinv, fun k => by simp [clauseVars]⟩
  | cons c rest ih =>
      intro st st2 hok hinv
      rw [exceptFoldCons] at hok
      cases hc : processClause vld st c with
      | error e => rw [hc] at hok; exact absurd hok (by simp [Except.bind])
      | ok stm =>
          rw [hc] at hok
          have h1 := processClause_count vld st stm c hc hinv
          have h2 := ih stm st2 hok h1.1
          refine ⟨h2.1, fun k => ?_⟩
          rw [h2.2 k, h1.2 k]
          obtain ⟨a⟩ := c
          simp only [clauseVars, List.mem_append]
          tauto

/-! Claim theorems for the join-tree compiler schema. -/

/-- C1: for every clause list accepted by `compile_clauses`, the returned
relation's schema holds each user-visible (non-synthetic) keyword
exactly once if it occurs as a variable anywhere in the clauses, and
never otherwise — repeated occurrences never produce a second
same-named column. -/
theorem compile_clauses_schema_vars (clauses : List Clause) (vld : Validity)
    (r : Relation) (h : compile_clauses clauses vld = .ok r) :
    ∀ k : Keyword, k.is_ignored_binding = false →
      r.bindings.count k = if k ∈ clauseVars clauses then 1 else 0 := by
  cases hst : clauses.foldlM (processClause vld) initCState with
  | error e =>
      rw [compile_clauses_err_of_fold clauses vld e hst] at h
      exact absurd h (by simp)
  | ok st =>
      rw [compile_clauses_eq_of_fold clauses vld st hst] at h
      injection h with h2
      subst h2
      intro k hk
      have hfold := foldlM_count vld clauses initCState st hst
        (fun k2 hk2 => by simp [initCState, Relation.bindings, clauseVars])
      have hseen : k ∈ st.seen ↔ k ∈ clauseVars clauses :=
        (hfold.2 k).trans (by simp [initCState])
      have hbase : st.ret.bindings.count k = if k ∈ clauseVars clauses then 1 else 0 := by
        rw [hfold.1 k hk, if_congr hseen rfl rfl]
      split
      · rw [Relation.eliminate_temp_vars, count_bindings_elimPass k hk,
          bindings_join_no_elim, List.count_append, Relation.eliminate_temp_vars,
          count_bindings_elimPass k hk, hbase]
        simp [Relation.bindings]
      · rw [Relation.eliminate_temp_vars, count_bindings_elimPass k hk, hbase]

/-- C1 witness: the schema-count theorem at a concrete compile. -/
theorem compile_clauses_schema_vars_witness :
    List.count "?x"
        (Relation.join (.fixed ⟨["*0"], [[.EnId 1]], []⟩)
          (.triple ⟨attrA, 7, ("*1", "?x")⟩) ⟨["*0"], ["*1"]⟩ ["*0", "*1"]).bindings =
      if ("?x" : Keyword) ∈ clauseVars [.AttrTriple ⟨attrA, .Const 1, .Variable "?x"⟩]
      then 1 else 0 :=
  compile_clauses_schema_vars [.AttrTriple ⟨attrA, .Const 1, .Variable "?x"⟩] 7 _
    rfl "?x" rfl

/-- C2: for every clause list accepted by `compile_clauses`, no
synthetic/ignored binding name remains in the returned relation's
schema. -/
theorem compile_clauses_schema_no_ignored (clauses : List Clause) (vld : Validity)
    (r : Relation) (h : compile_clauses clauses vld = .ok r) :
    ∀ b ∈ r.bindings, b.is_ignored_binding = false := by
  cases hst : clauses.foldlM (processClause vld) initCState with
  | error e =>
      rw [compile_clauses_err_of_fold clauses vld e hst] at h
      exact absurd h (by simp)
  | ok st =>
      rw [compile_clauses_eq_of_fold clauses vld st hst] at h
      injection h with h2
      subst h2
      intro b hb
      cases hcond : (st.ret.eliminate_temp_vars).bindings.any
          (fun x => x.is_ignored_binding) with
      | false =>
          rw [if_neg (by rw [hcond]; exact Bool.false_ne_true)] at hb
          exact Bool.not_eq_true _ |>.mp (List.any_eq_false.mp hcond b hb)
      | true =>
          rw [if_pos hcond] at hb
          cases hign : b.is_ignored_binding with
          | false => rfl
          | true =>
              exact absurd hb
                (ignored_not_mem_elimPass_join _ _ _ _ [] b hign
                  (List.not_mem_nil b))

/-- C2 witness: the no-synthetic-binding theorem at a concrete
compile. -/
theorem compile_clauses_schema_no_ignored_witness :
    Keyword.is_ignored_binding "?y" = false :=
  compile_clauses_schema_no_ignored
    [.AttrTriple ⟨attrA, .Const 1, .Variable "?y"⟩] 3
    (Relation.join (.fixed ⟨["*0"], [[.EnId 1]], []⟩)
      (.triple ⟨attrA, 3, ("*1", "?y")⟩) ⟨["*0"], ["*1"]⟩ ["*0", "*1"]) rfl
    "?y" (by simp [Relation.bindings])

/-! Claim theorems for the clause parser. -/

/-- C4 counterexample: for a reference-typed attribute the value-position
object `{"const": 3}` is not parsed as an explicit constant — the parser
routes every object for a reference-typed attribute to the unique-index
entity lookup, so `const` is read as an attribute name and here fails
with attribute-not-found. -/
theorem const_key_ref_attr_counterexample :
    parse_triple_clause_value envNone (.obj [("const", .num 3)]) attrRef 0 =
      .error (.attrNotFound "const") := rfl

/-- C4 (amended): for every non-reference-typed attribute, a value
position given as a single-key object whose key is literally `const` is
parsed as an explicit constant — its payload is coerced to the clause
attribute's declared value type, bypassing variable/reserved-word
detection and unique-index lookup; for reference-typed attributes the
object is instead routed to the unique-index entity lookup. -/
theorem parse_value_const_escape (env : SessionEnv) (attr : Attribute)
    (v : JsonValue) (vld : Validity) (dv : DataValue)
    (href : attr.val_type.is_ref_type = false)
    (hco : env.coerce_value attr.val_type v = .ok dv) :
    parse_triple_clause_value env (.obj [("const", v)]) attr vld =
      .ok (.Const dv) := by
  simp [parse_triple_clause_value, href, parse_value_from_map, hco, Except.map]

/-- C4 witness: the `const` escape on a concrete non-reference
attribute. -/
theorem parse_value_const_escape_witness :
    parse_triple_clause_value envCat (.obj [("const", .num 3)]) attrA 0 =
      .ok (.Const (.IntV 0)) :=
  parse_value_const_escape envCat attrA (.num 3) 0 (.IntV 0) rfl rfl

/-- C5: a single-key-object unique-index lookup whose coerced value
matches no entity at the given validity succeeds with the sentinel
`EntityId 0`; a lookup naming an attribute that is not a unique index
fails with the `attribute is not a unique index` error; and the entity
position routes every object through this very lookup. -/
theorem parse_eid_unique_lookup (env : SessionEnv) (k : String) (v : JsonValue)
    (vld : Validity) (attr : Attribute) (dv : DataValue)
    (hattr : env.attr_by_kw k = some attr) :
    (attr.indexing.is_unique_index = true →
      env.coerce_value attr.val_type v = .ok dv →
      env.eid_by_unique_av attr dv vld = none →
      parse_eid_from_map env [(k, v)] vld = .ok 0)
    ∧ (attr.indexing.is_unique_index = false →
      parse_eid_from_map env [(k, v)] vld =
        .error (.unexpectedForm (.obj [(k, v)]) "attribute is not a unique index"))
    ∧ (∀ (m : List (String × JsonValue)),
      parse_triple_clause_entity env (.obj m) vld =
        (parse_eid_from_map env m vld).map .Const) := by
  refine ⟨fun hu hco hmiss => ?_, fun hnu => ?_, fun m => rfl⟩
  · simp [parse_eid_from_map, hattr, hu, hco, monad_bind_ok, hmiss]
  · simp [parse_eid_from_map, hattr, hnu]

/-- C5 witness: the sentinel and the non-unique error on the concrete
catalog. -/
theorem parse_eid_unique_lookup_witness :
    parse_eid_from_map envCat [(":u", .num 3)] 0 = .ok 0 ∧
      parse_eid_from_map envCat [(":r", .num 3)] 0 =
        .error (.unexpectedForm (.obj [(":r", .num 3)]) "attribute is not a unique index") :=
  ⟨(parse_eid_unique_lookup envCat ":u" (.num 3) 0 attrUniq (.IntV 0) rfl).1 rfl rfl rfl,
   (parse_eid_unique_lookup envCat ":r" (.num 3) 0 attrRef (.IntV 0) rfl).2.1 rfl⟩

/-! Lemmas about the `DataValue` ordering. -/

theorem natCmp_lt_iff (a b : Nat) : natCmp a b = .lt ↔ a < b := by
  unfold natCmp
  split_ifs <;> simp <;> omega

theorem natCmp_gt_iff (a b : Nat) : natCmp a b = .gt ↔ b < a := by
  unfold natCmp
  split_ifs <;> simp <;> omega

theorem natCmp_eq_iff (a b : Nat) : natCmp a b = .eq ↔ a = b := by
  unfold natCmp
  split_ifs <;> simp <;> omega

theorem intCmp_lt_iff (a b : Int) : intCmp a b = .lt ↔ a < b := by
  unfold intCmp
  split_ifs <;> simp <;> omega

theorem intCmp_gt_iff (a b : Int) : intCmp a b = .gt ↔ b < a := by
  unfold intCmp
  split_ifs <;> simp <;> omega

theorem intCmp_eq_iff (a b : Int) : intCmp a b = .eq ↔ a = b := by
  unfold intCmp
  split_ifs <;> simp <;> omega

theorem natCmp_swap (a b : Nat) : (natCmp a b).swap = natCmp b a := by
  unfold natCmp
  split_ifs <;> first | rfl | omega

theorem intCmp_swap (a b : Int) : (intCmp a b).swap = intCmp b a := by
  unfold intCmp
  split_ifs <;> first | rfl | omega

theorem cmp_swap : ∀ (a b : DataValue), (a.cmp b).swap = b.cmp a
  | .EnId x, .EnId y => natCmp_swap x y
  | .EnId x, .IntV y => natCmp_swap 0 1
  | .EnId x, .Rev y => natCmp_swap 0 2
  | .IntV x, .EnId y => natCmp_swap 1 0
  | .IntV x, .IntV y => intCmp_swap x y
  | .IntV x, .Rev y => natCmp_swap 1 2
  | .Rev x, .EnId y => natCmp_swap 2 0
  | .Rev x, .IntV y => natCmp_swap 2 1
  | .Rev x, .Rev y => by
      show ((x.cmp y).swap).swap = (y.cmp x).swap
      rw [Ordering.swap_swap, ← cmp_swap y x]
termination_by a b => sizeOf a + sizeOf b

theorem cmp_rev_rev (a b : DataValue) :
    DataValue.cmp (.Rev a) (.Rev b) = DataValue.cmp b a := by
  show (a.cmp b).swap = b.cmp a
  exact cmp_swap a b

theorem cmp_eq_iff : ∀ (a b : DataValue), a.cmp b = .eq ↔ a = b
  | .EnId x, .EnId y => by simp [DataValue.cmp, natCmp_eq_iff]
  | .EnId x, .IntV y => by simp [DataValue.cmp, DataValue.tag, natCmp]
  | .EnId x, .Rev y => by simp [DataValue.cmp, DataValue.tag, natCmp]
  | .IntV x, .EnId y => by simp [DataValue.cmp, DataValue.tag, natCmp]
  | .IntV x, .IntV y => by simp [DataValue.cmp, intCmp_eq_iff]
  | .IntV x, .Rev y => by simp [DataValue.cmp, DataValue.tag, natCmp]
  | .Rev x, .EnId y => by simp [DataValue.cmp, DataValue.tag, natCmp]
  | .Rev x, .IntV y => by simp [DataValue.cmp, DataValue.tag, natCmp]
  | .Rev x, .Rev y => by
      rw [cmp_rev_rev, cmp_eq_iff y x]
      exact ⟨fun h2 => by rw [h2], fun h2 => by cases h2; rfl⟩
termination_by a b => sizeOf a + sizeOf b

theorem cmp_gt_iff_lt : ∀ (a b : DataValue), a.cmp b = .gt ↔ b.cmp a = .lt
  | .EnId x, .EnId y => by simp [DataValue.cmp, natCmp_gt_iff, natCmp_lt_iff]
  | .EnId x, .IntV y => by simp [DataValue.cmp, DataValue.tag, natCmp]
  | .EnId x, .Rev y => by simp [DataValue.cmp, DataValue.tag, natCmp]
  | .IntV x, .EnId y => by simp [DataValue.cmp, DataValue.tag, natCmp]
  | .IntV x, .IntV y => by simp [DataValue.cmp, intCmp_gt_iff, intCmp_lt_iff]
  | .IntV x, .Rev y => by simp [DataValue.cmp, DataValue.tag, natCmp]
  | .Rev x, .EnId y => by simp [DataValue.cmp, DataValue.tag, natCmp]
  | .Rev x, .IntV y => by simp [DataValue.cmp, DataValue.tag, natCmp]
  | .Rev x, .Rev y => by
      rw [cmp_rev_rev, cmp_rev_rev]
      exact cmp_gt_iff_lt y x
termination_by a b => sizeOf a + sizeOf b

theorem cmp_lt_trans_aux : ∀ (n : Nat) (a b c : DataValue),
    sizeOf a + sizeOf b + sizeOf c ≤ n →
    a.cmp b = .lt → b.cmp c = .lt → a.cmp c = .lt := by
  intro n
  induction n with
  | zero =>
      intro a b c hs h1 h2
      cases a <;> simp +arith at hs
  | succ n ih =>
      intro a b c hs h1 h2
      cases a <;> cases b <;> cases c <;>
        (try simp only [cmp_rev_rev] at h1 h2 ⊢) <;>
        (try simp only [DataValue.cmp] at h1 h2 ⊢) <;>
        first
          | (simp only [natCmp_lt_iff] at h1 h2 ⊢; omega)
          | (simp only [intCmp_lt_iff] at h1 h2 ⊢; omega)
          | (exact ih _ _ _ (by simp +arith at hs ⊢; omega) h2 h1)
          | (simp [DataValue.tag, natCmp] at h1 h2 ⊢)

theorem cmp_lt_trans (a b c : DataValue) (h1 : a.cmp b = .lt) (h2 : b.cmp c = .lt) :
    a.cmp c = .lt :=
  cmp_lt_trans_aux (sizeOf a + sizeOf b + sizeOf c) a b c le_rfl h1 h2

theorem cmp_self_eq (a : DataValue) : a.cmp a = .eq := (cmp_eq_iff a a).mpr rfl

/-! Lemmas about lexicographic tuple comparison. -/

theorem tupleCmp_eq_iff : ∀ (xs ys : Tuple), tupleCmp xs ys = .eq ↔ xs = ys
  | [], [] => by simp [tupleCmp]
  | [], _ :: _ => by simp [tupleCmp]
  | _ :: _, [] => by simp [tupleCmp]
  | x :: xs, y :: ys => by
      simp only [tupleCmp]
      cases hc : x.cmp y with
      | eq =>
          have hxy : x = y := (cmp_eq_iff x y).mp hc
          subst hxy
          rw [tupleCmp_eq_iff xs ys]
          simp
      | lt =>
          constructor
          · intro h; cases h
          · intro h
            injection h with h1 h2
            rw [h1, cmp_self_eq] at hc
            cases hc
      | gt =>
          constructor
          · intro h; cases h
          · intro h
            injection h with h1 h2
            rw [h1, cmp_self_eq] at hc
            cases hc

theorem tupleCmp_self_eq (xs : Tuple) : tupleCmp xs xs = .eq :=
  (tupleCmp_eq_iff xs xs).mpr rfl

theorem tupleCmp_gt_iff_lt : ∀ (xs ys : Tuple), tupleCmp xs ys = .gt ↔ tupleCmp ys xs = .lt
  | [], [] => by simp [tupleCmp]
  | [], _ :: _ => by simp [tupleCmp]
  | _ :: _, [] => by simp [tupleCmp]
  | x :: xs, y :: ys => by
      simp only [tupleCmp]
      cases hc : x.cmp y with
      | eq =>
          have hyx : y.cmp x = .eq := (cmp_eq_iff _ _).mpr ((cmp_eq_iff _ _).mp hc).symm
          rw [hyx]
          exact tupleCmp_gt_iff_lt xs ys
      | lt =>
          have hyx : y.cmp x = .gt := (cmp_gt_iff_lt y x).mpr hc
          rw [hyx]
          simp
      | gt =>
          have hyx : y.cmp x = .lt := (cmp_gt_iff_lt x y).mp hc
          rw [hyx]
          simp

theorem tupleCmp_lt_trans : ∀ (xs ys zs : Tuple),
    tupleCmp xs ys = .lt → tupleCmp ys zs = .lt → tupleCmp xs zs = .lt := by
  intro xs
  induction xs with
  | nil =>
      intro ys zs h1 h2
      cases ys with
      | nil => cases h1
      | cons y ys =>
          cases zs with
          | nil => cases h2
          | cons z zs => rfl
  | cons x xs ih =>
      intro ys zs h1 h2
      cases ys with
      | nil => cases h1
      | cons y ys =>
          cases zs with
          | nil => cases h2
          | cons z zs =>
              simp only [tupleCmp] at h1 h2 ⊢
              cases hxy : x.cmp y with
              | lt =>
                  cases hyz : y.cmp z with
                  | lt => rw [cmp_lt_trans x y z hxy hyz]
                  | eq =>
                      have he : y = z := (cmp_eq_iff _ _).mp hyz
                      subst he
                      rw [hxy]
                  | gt =>
                      rw [hyz] at h2
                      have h2b : Ordering.gt = Ordering.lt := h2
                      cases h2b
              | eq =>
                  have hxy2 : x = y := (cmp_eq_iff _ _).mp hxy
                  subst hxy2
                  rw [hxy] at h1
                  cases hyz : x.cmp z with
                  | lt => rfl
                  | eq =>
                      rw [hyz] at h2
                      exact ih ys zs h1 h2
                  | gt =>
                      rw [hyz] at h2
                      have h2b : Ordering.gt = Ordering.lt := h2
                      cases h2b
              | gt =>
                  rw [hxy] at h1
                  have h1b : Ordering.gt = Ordering.lt := h1
                  cases h1b

theorem tupleCmp_concat (u v : DataValue) :
    ∀ (xs ys : Tuple), xs.length = ys.length →
    tupleCmp (xs ++ [u]) (ys ++ [v]) =
      (match tupleCmp xs ys with
        | .eq => u.cmp v
        | o => o) := by
  intro xs
  induction xs with
  | nil =>
      intro ys hlen
      cases ys with
      | nil => cases h : u.cmp v <;> simp [tupleCmp, h]
      | cons y ys => simp at hlen
  | cons x xs ih =>
      intro ys hlen
      cases ys with
      | nil => simp at hlen
      | cons y ys =>
          simp only [List.cons_append, tupleCmp]
          cases h : x.cmp y <;> simp [h]
          exact ih ys (by simpa using hlen)

theorem concat_inj_last (xs ys : Tuple) (u v : DataValue)
    (h : xs ++ [u] = ys ++ [v]) : u = v := by
  have h1 := congrArg List.getLast? h
  simpa using h1

/-! Lemmas about the key-ordered store. -/

theorem mem_insertKV (k v : Tuple) :
    ∀ (l : List (Tuple × Tuple)) (p : Tuple × Tuple),
      p ∈ insertKV k v l → p = (k, v) ∨ p ∈ l := by
  intro l
  induction l with
  | nil => intro p hp; simpa [insertKV] using hp
  | cons q rest ih =>
      intro p hp
      obtain ⟨k1, v1⟩ := q
      simp only [insertKV] at hp
      cases hc : tupleCmp k k1 with
      | lt =>
          rw [hc] at hp
          have hp2 : p ∈ (k, v) :: (k1, v1) :: rest := hp
          rcases List.mem_cons.mp hp2 with h1 | h1
          · exact .inl h1
          · exact .inr h1
      | eq =>
          rw [hc] at hp
          have hp2 : p ∈ (k, v) :: rest := hp
          rcases List.mem_cons.mp hp2 with h1 | h1
          · exact .inl h1
          · exact .inr (List.mem_cons.mpr (.inr h1))
      | gt =>
          rw [hc] at hp
          have hp2 : p ∈ (k1, v1) :: insertKV k v rest := hp
          rcases List.mem_cons.mp hp2 with h1 | h1
          · exact .inr (List.mem_cons.mpr (.inl h1))
          · rcases ih p h1 with h2 | h2
            · exact .inl h2
            · exact .inr (List.mem_cons.mpr (.inr h2))

theorem pairwise_insertKV (k v : Tuple) :
    ∀ (l : List (Tuple × Tuple)),
      List.Pairwise (fun p q => tupleCmp p.1 q.1 = .lt) l →
      List.Pairwise (fun p q => tupleCmp p.1 q.1 = .lt) (insertKV k v l) := by
  intro l
  induction l with
  | nil => intro _; simp [insertKV]
  | cons q rest ih =>
      intro h
      obtain ⟨k1, v1⟩ := q
      rcases List.pairwise_cons.mp h with ⟨hq, hrest⟩
      simp only [insertKV]
      cases hc : tupleCmp k k1 with
      | lt =>
          refine List.pairwise_cons.mpr ⟨?_, h⟩
          intro p hp
          rcases List.mem_cons.mp hp with h1 | h1
          · rw [h1]
            exact hc
          · exact tupleCmp_lt_trans _ _ _ hc (hq p h1)
      | eq =>
          have hk : k = k1 := (tupleCmp_eq_iff _ _).mp hc
          refine List.pairwise_cons.mpr ⟨?_, hrest⟩
          intro p hp
          rw [hk]
          exact hq p hp
      | gt =>
          refine List.pairwise_cons.mpr ⟨?_, ih hrest⟩
          intro p hp
          rcases mem_insertKV k v rest p hp with h1 | h1
          · rw [h1]
            exact (tupleCmp_gt_iff_lt _ _).mp hc
          · exact hq p h1

theorem insertKV_append (k v : Tuple) :
    ∀ (l : List (Tuple × Tuple)), (∀ p ∈ l, tupleCmp p.1 k = .lt) →
      insertKV k v l = l ++ [(k, v)] := by
  intro l
  induction l with
  | nil => intro _; rfl
  | cons q rest ih =>
      intro h
      obtain ⟨k1, v1⟩ := q
      have h1 : tupleCmp k1 k = .lt := h (k1, v1) (by simp)
      have hgt : tupleCmp k k1 = .gt := (tupleCmp_gt_iff_lt _ _).mpr h1
      simp only [insertKV, hgt]
      rw [ih (fun p hp => h p (List.mem_cons.mpr (.inr hp)))]
      simp

theorem insertKV_perm (k v : Tuple) :
    ∀ (l : List (Tuple × Tuple)), (∀ p ∈ l, tupleCmp k p.1 ≠ .eq) →
      (insertKV k v l).Perm ((k, v) :: l) := by
  intro l
  induction l with
  | nil => intro _; exact List.Perm.refl _
  | cons q rest ih =>
      intro h
      obtain ⟨k1, v1⟩ := q
      simp only [insertKV]
      cases hc : tupleCmp k k1 with
      | lt => exact List.Perm.refl _
      | eq => exact absurd hc (h (k1, v1) (by simp))
      | gt =>
          have hp := ih (fun p hp => h p (List.mem_cons.mpr (.inr hp)))
          exact (hp.cons (k1, v1)).trans (List.Perm.swap _ _ _)

theorem buildStore_master (is : List (Nat × SortDir)) :
    ∀ (rows : List Tuple) (pos : Nat) (store st : List (Tuple × Tuple)),
      buildStore is pos store rows = some st →
      List.Pairwise (fun p q => tupleCmp p.1 q.1 = .lt) store →
      (∀ p ∈ store, ∃ j bk, j < pos ∧ baseKey is p.2 = some bk ∧
        p.1 = bk ++ [DataValue.IntV (j : Int)]) →
      List.Pairwise (fun p q => tupleCmp p.1 q.1 = .lt) st ∧
      (st.map Prod.snd).Perm (store.map Prod.snd ++ rows) ∧
      (∀ p ∈ st, ∃ j bk, j < pos + rows.length ∧ baseKey is p.2 = some bk ∧
        p.1 = bk ++ [DataValue.IntV (j : Int)]) ∧
      (∀ p ∈ st, p ∈ store ∨ ∃ i, i < rows.length ∧ rows.get? i = some p.2 ∧
        rowKey is (pos + i) p.2 = some p.1) := by
  intro rows
  induction rows with
  | nil =>
      intro pos store st hok hsort hinv
      simp only [buildStore] at hok
      injection hok with h
      subst h
      refine ⟨hsort, by simp, fun p hp => ?_, fun p hp => .inl hp⟩
      obtain ⟨j, bk, hj, hbk, hkey⟩ := hinv p hp
      exact ⟨j, bk, by simpa using hj, hbk, hkey⟩
  | cons t rest ih =>
      intro pos store st hok hsort hinv
      simp only [buildStore] at hok
      cases hrk : rowKey is pos t with
      | none => rw [hrk] at hok; cases hok
      | some k =>
          rw [hrk] at hok
          obtain ⟨bk, hbk, hkeq⟩ : ∃ bk, baseKey is t = some bk ∧
              k = bk ++ [DataValue.IntV (pos : Int)] := by
            unfold rowKey at hrk
            cases hb : baseKey is t with
            | none => rw [hb] at hrk; cases hrk
            | some b =>
                rw [hb] at hrk
                injection hrk with h
                exact ⟨b, rfl, h.symm⟩
          have hinv2 : ∀ p ∈ insertKV k t store, ∃ j bk2, j < pos + 1 ∧
              baseKey is p.2 = some bk2 ∧ p.1 = bk2 ++ [DataValue.IntV (j : Int)] := by
            intro p hp
            rcases mem_insertKV k t store p hp with h1 | h1
            · exact ⟨pos, bk, by omega, by rw [h1]; exact hbk, by rw [h1, hkeq]⟩
            · obtain ⟨j, bk2, hj, hb2, hk2⟩ := hinv p h1
              exact ⟨j, bk2, by omega, hb2, hk2⟩
          have hsort2 := pairwise_insertKV k t store hsort
          have hres := ih (pos + 1) (insertKV k t store) st hok hsort2 hinv2
          have hneq : ∀ p ∈ store, tupleCmp k p.1 ≠ .eq := by
            intro p hp he
            obtain ⟨j, bk2, hj, hb2, hk2⟩ := hinv p hp
            have hkp : k = p.1 := (tupleCmp_eq_iff _ _).mp he
            rw [hkeq, hk2] at hkp
            have hlast := concat_inj_last _ _ _ _ hkp
            injection hlast with h3
            omega
          have hperm : ((insertKV k t store).map Prod.snd).Perm
              (t :: store.map Prod.snd) := by
            have h1 := (insertKV_perm k t store hneq).map Prod.snd
            simpa using h1
          refine ⟨hres.1, ?_, ?_, ?_⟩
          · have h2 := hres.2.1
            have h3 : ((insertKV k t store).map Prod.snd ++ rest).Perm
                ((t :: store.map Prod.snd) ++ rest) := hperm.append_right rest
            have h4 : ((t :: store.map Prod.snd) ++ rest).Perm
                (store.map Prod.snd ++ t :: rest) := List.perm_middle.symm
            exact h2.trans (h3.trans h4)
          · intro p hp
            obtain ⟨j, bk2, hj, hb2, hk2⟩ := hres.2.2.1 p hp
            exact ⟨j, bk2, by simp at hj ⊢; omega, hb2, hk2⟩
          · intro p hp
            rcases hres.2.2.2 p hp with h1 | h1
            · rcases mem_insertKV k t store p h1 with h2 | h2
              · refine .inr ⟨0, by simp, by rw [h2]; rfl, ?_⟩
                rw [h2]
                simpa using hrk
              · exact .inl h2
            · obtain ⟨i, hi, hget, hkey⟩ := h1
              refine .inr ⟨i + 1, by simpa using hi, by simpa using hget, ?_⟩
              rw [show pos + (i + 1) = pos + 1 + i by omega]
              exact hkey

theorem mkIdxSorters_two (head : List Symbol) (k1 k2 : Symbol) (i1 i2 : Nat)
    (hi1 : headIndex head k1 = some i1) (hi2 : headIndex head k2 = some i2) :
    mkIdxSorters [(k1, .Asc), (k2, .Dsc)] head =
      some [(i1, .Asc), (i2, .Dsc)] := by
  simp [mkIdxSorters, optionMapList, hi1, hi2]

theorem optionMapList_cons_inv {A B : Type} (f : A → Option B) (a : A)
    (l : List A) (out : List B) (h : optionMapList f (a :: l) = some out) :
    ∃ b bs, f a = some b ∧ optionMapList f l = some bs ∧ out = b :: bs := by
  unfold optionMapList at h
  cases hf : f a with
  | none => rw [hf] at h; cases h
  | some b =>
      rw [hf] at h
      cases hl : optionMapList f l with
      | none => rw [hl] at h; cases h
      | some bs =>
          rw [hl] at h
          injection h with h
          exact ⟨b, bs, rfl, rfl, h.symm⟩

theorem rowKey_two (i1 i2 : Nat) (i : Nat) (t : Tuple) (key : Tuple)
    (h : rowKey [(i1, SortDir.Asc), (i2, SortDir.Dsc)] i t = some key) :
    ∃ a b, t.get? i1 = some a ∧ t.get? i2 = some b ∧
      key = [a, .Rev b, .IntV (i : Int)] := by
  unfold rowKey at h
  cases hB : baseKey [(i1, SortDir.Asc), (i2, SortDir.Dsc)] t with
  | none => rw [hB] at h; cases h
  | some base =>
      rw [hB] at h
      injection h with h
      obtain ⟨b1, bs1, hf1, hrest1, hout1⟩ :=
        optionMapList_cons_inv _ _ _ _ hB
      obtain ⟨b2, bs2, hf2, hrest2, hout2⟩ :=
        optionMapList_cons_inv _ _ _ _ hrest1
      have hnil : some ([] : Tuple) = some bs2 := hrest2
      injection hnil with hnil
      cases ha : t.get? i1 with
      | none => rw [ha] at hf1; cases hf1
      | some a =>
          cases hb : t.get? i2 with
          | none => rw [hb] at hf2; cases hf2
          | some b =>
              rw [ha] at hf1
              rw [hb] at hf2
              injection hf1 with hf1
              injection hf2 with hf2
              refine ⟨a, b, rfl, rfl, ?_⟩
              rw [← h, hout1, hout2, ← hnil, ← hf1, ← hf2]
              rfl

theorem tupleCmp_two_key_lex (a b : DataValue) (i : Int) (a2 b2 : DataValue)
    (j : Int) :
    tupleCmp [a, .Rev b, .IntV i] [a2, .Rev b2, .IntV j] = .lt ↔
      (a.cmp a2 = .lt ∨ (a = a2 ∧ (b2.cmp b = .lt ∨ (b = b2 ∧ i < j)))) := by
  simp only [tupleCmp, cmp_rev_rev,
    show ∀ i2 j2 : Int, DataValue.cmp (.IntV i2) (.IntV j2) = intCmp i2 j2
      from fun i2 j2 => rfl]
  cases hc : a.cmp a2 with
  | lt =>
      simp [hc]
  | gt =>
      have hne : a ≠ a2 := fun he => by rw [he, cmp_self_eq] at hc; cases hc
      simp [hne]
  | eq =>
      have heq : a = a2 := (cmp_eq_iff _ _).mp hc
      cases hc2 : b2.cmp b with
      | lt => simp [heq, hc2]
      | gt =>
          have hne : b ≠ b2 := fun he => by rw [he, cmp_self_eq] at hc2; cases hc2
          simp [heq, hne]
      | eq =>
          have heq2 : b2 = b := (cmp_eq_iff _ _).mp hc2
          cases hc3 : intCmp i j with
          | lt => simp [heq, heq2.symm, (intCmp_lt_iff i j).mp hc3]
          | eq =>
              have : i = j := (intCmp_eq_iff i j).mp hc3
              simp [heq, heq2.symm, this]
          | gt =>
              have : j < i := (intCmp_gt_iff i j).mp hc3
              simp [heq, heq2.symm]
              omega

/-- C7: with one ascending key then one descending key, `sort_and_collect`
stores every input row exactly once, strictly ordered by its key; each
stored key is the row's first sort column, the `Rev`-wrapped second sort
column, and the row's zero-based original scan position; and that key
order is exactly lexicographic (key1 ascending, key2 descending, scan
position ascending as the deterministic tie-break). -/
theorem sort_and_collect_two_keys (original : List Tuple) (head : List Symbol)
    (k1 k2 : Symbol) (i1 i2 : Nat) (st : List (Tuple × Tuple))
    (hi1 : headIndex head k1 = some i1) (hi2 : headIndex head k2 = some i2)
    (h : sort_and_collect original [(k1, .Asc), (k2, .Dsc)] head = some st) :
    (scanAll st).Perm original ∧
    List.Pairwise (fun p q => tupleCmp p.1 q.1 = .lt) st ∧
    (∀ p ∈ st, ∃ i a b, i < original.length ∧ original.get? i = some p.2 ∧
      p.2.get? i1 = some a ∧ p.2.get? i2 = some b ∧
      p.1 = [a, .Rev b, .IntV (i : Int)]) ∧
    (∀ (a b : DataValue) (i : Int) (a2 b2 : DataValue) (j : Int),
      tupleCmp [a, .Rev b, .IntV i] [a2, .Rev b2, .IntV j] = .lt ↔
        (a.cmp a2 = .lt ∨ (a = a2 ∧ (b2.cmp b = .lt ∨ (b = b2 ∧ i < j))))) := by
  unfold sort_and_collect at h
  rw [mkIdxSorters_two head k1 k2 i1 i2 hi1 hi2] at h
  have hm := buildStore_master [(i1, .Asc), (i2, .Dsc)] original 0 [] st h
    (List.Pairwise.nil) (by intro p hp; cases hp)
  refine ⟨by simpa [scanAll] using hm.2.1, hm.1, fun p hp => ?_,
    tupleCmp_two_key_lex⟩
  rcases hm.2.2.2 p hp with h1 | h1
  · cases h1
  · obtain ⟨i, hi, hget, hkey⟩ := h1
    obtain ⟨a, b, ha, hb, hk⟩ := rowKey_two i1 i2 (0 + i) p.2 p.1 hkey
    exact ⟨i, a, b, hi, hget, ha, hb, by simpa using hk⟩

/-- C7 witness: three concrete rows sorted on (column 0 ascending,
column 1 descending) are a permutation of the input. -/
theorem sort_and_collect_two_keys_witness :
    (scanAll
        [([DataValue.IntV 0, .Rev (.IntV 5), .IntV 2], [DataValue.IntV 0, .IntV 5]),
         ([DataValue.IntV 1, .Rev (.IntV 3), .IntV 1], [DataValue.IntV 1, .IntV 3]),
         ([DataValue.IntV 1, .Rev (.IntV 2), .IntV 0], [DataValue.IntV 1, .IntV 2])]).Perm
      [[DataValue.IntV 1, .IntV 2], [DataValue.IntV 1, .IntV 3],
       [DataValue.IntV 0, .IntV 5]] :=
  (sort_and_collect_two_keys
    [[DataValue.IntV 1, .IntV 2], [DataValue.IntV 1, .IntV 3],
     [DataValue.IntV 0, .IntV 5]]
    ["a", "b"] "a" "b" 0 1
    [([DataValue.IntV 0, .Rev (.IntV 5), .IntV 2], [DataValue.IntV 0, .IntV 5]),
     ([DataValue.IntV 1, .Rev (.IntV 3), .IntV 1], [DataValue.IntV 1, .IntV 3]),
     ([DataValue.IntV 1, .Rev (.IntV 2), .IntV 0], [DataValue.IntV 1, .IntV 2])]
    rfl rfl (by rfl)).1

theorem optionMapList_length {A B : Type} (f : A → Option B) :
    ∀ (l : List A) (out : List B), optionMapList f l = some out →
      out.length = l.length := by
  intro l
  induction l with
  | nil =>
      intro out h
      injection h with h
      rw [← h]
      rfl
  | cons a l ih =>
      intro out h
      obtain ⟨b, bs, hf, hl, hout⟩ := optionMapList_cons_inv f a l out h
      rw [hout]
      simp [ih bs hl]

theorem buildStore_sorted_run (is : List (Nat × SortDir)) :
    ∀ (rows : List Tuple) (pos : Nat) (store : List (Tuple × Tuple)),
      (∀ t ∈ rows, ∃ bt, baseKey is t = some bt) →
      List.Pairwise (fun t u => ∀ bt bu, baseKey is t = some bt →
        baseKey is u = some bu → tupleCmp bt bu ≠ .gt) rows →
      (∀ p ∈ store, ∃ j bk, j < pos ∧ baseKey is p.2 = some bk ∧
        p.1 = bk ++ [DataValue.IntV (j : Int)] ∧
        (∀ t ∈ rows, ∀ bt, baseKey is t = some bt → tupleCmp bk bt ≠ .gt)) →
      ∃ st2, buildStore is pos store rows = some st2 ∧
        st2.map Prod.snd = store.map Prod.snd ++ rows := by
  intro rows
  induction rows with
  | nil =>
      intro pos store _ _ _
      exact ⟨store, rfl, by simp⟩
  | cons t rest ih =>
      intro pos store hall hpair hinv
      obtain ⟨bt, hbt⟩ := hall t (by simp)
      have hrk : rowKey is pos t = some (bt ++ [DataValue.IntV (pos : Int)]) := by
        unfold rowKey
        rw [hbt]
        rfl
      have hlen_bt : bt.length = is.length := optionMapList_length _ is bt hbt
      have hall_lt : ∀ p ∈ store,
          tupleCmp p.1 (bt ++ [DataValue.IntV (pos : Int)]) = .lt := by
        intro p hp
        obtain ⟨j, bk, hj, hbk, hkey, hcond⟩ := hinv p hp
        have hlen_bk : bk.length = is.length := optionMapList_length _ is bk hbk
        rw [hkey, tupleCmp_concat _ _ bk bt (by omega)]
        cases hcb : tupleCmp bk bt with
        | lt => rfl
        | eq =>
            show DataValue.cmp (.IntV (j : Int)) (.IntV (pos : Int)) = .lt
            simp only [DataValue.cmp]
            exact (intCmp_lt_iff _ _).mpr (by exact_mod_cast hj)
        | gt => exact absurd hcb (hcond t (by simp) bt hbt)
      have hins : insertKV (bt ++ [DataValue.IntV (pos : Int)]) t store =
          store ++ [(bt ++ [DataValue.IntV (pos : Int)], t)] :=
        insertKV_append _ _ store hall_lt
      have hinv2 : ∀ p ∈ store ++ [(bt ++ [DataValue.IntV (pos : Int)], t)],
          ∃ j bk, j < pos + 1 ∧ baseKey is p.2 = some bk ∧
          p.1 = bk ++ [DataValue.IntV (j : Int)] ∧
          (∀ u ∈ rest, ∀ bu, baseKey is u = some bu → tupleCmp bk bu ≠ .gt) := by
        intro p hp
        rcases List.mem_append.mp hp with h1 | h1
        · obtain ⟨j, bk, hj, hbk, hkey, hcond⟩ := hinv p h1
          exact ⟨j, bk, by omega, hbk, hkey,
            fun u hu bu hbu => hcond u (List.mem_cons.mpr (.inr hu)) bu hbu⟩
        · have h2 : p = (bt ++ [DataValue.IntV (pos : Int)], t) := by
            simpa using h1
          refine ⟨pos, bt, by omega, by rw [h2]; exact hbt, by rw [h2], ?_⟩
          intro u hu bu hbu
          exact (List.pairwise_cons.mp hpair).1 u hu bt bu hbt hbu
      obtain ⟨st2, hb2, hm2⟩ := ih (pos + 1)
        (store ++ [(bt ++ [DataValue.IntV (pos : Int)], t)])
        (fun u hu => hall u (List.mem_cons.mpr (.inr hu)))
        (List.pairwise_cons.mp hpair).2 hinv2
      refine ⟨st2, ?_, ?_⟩
      · show (match rowKey is pos t with
          | none => none
          | some k => buildStore is (pos + 1) (insertKV k t store) rest) = some st2
        rw [hrk]
        show buildStore is (pos + 1)
          (insertKV (bt ++ [DataValue.IntV (pos : Int)]) t store) rest = some st2
        rw [hins]
        exact hb2
      · rw [hm2]
        simp

/-- C8: re-sorting an already-sorted relation with the same sorters and
head succeeds and leaves the row sequence unchanged — `sort_and_collect`
is idempotent on row content and order. -/
theorem sort_and_collect_idempotent (original : List Tuple)
    (sorters : List (Symbol × SortDir)) (head : List Symbol)
    (st1 : List (Tuple × Tuple))
    (h1 : sort_and_collect original sorters head = some st1) :
    ∃ st2, sort_and_collect (scanAll st1) sorters head = some st2 ∧
      scanAll st2 = scanAll st1 := by
  unfold sort_and_collect at h1 ⊢
  cases hmk : mkIdxSorters sorters head with
  | none => rw [hmk] at h1; cases h1
  | some is =>
      rw [hmk] at h1
      have hm := buildStore_master is original 0 [] st1 h1 List.Pairwise.nil
        (by intro p hp; cases hp)
      have hform := hm.2.2.1
      have hall : ∀ t ∈ scanAll st1, ∃ bt, baseKey is t = some bt := by
        intro t ht
        obtain ⟨p, hp, hpt⟩ := List.mem_map.mp ht
        obtain ⟨j, bk, _, hbk, _⟩ := hform p hp
        exact ⟨bk, by rw [← hpt]; exact hbk⟩
      have hpair : List.Pairwise (fun t u => ∀ bt bu, baseKey is t = some bt →
          baseKey is u = some bu → tupleCmp bt bu ≠ .gt) (scanAll st1) := by
        unfold scanAll
        rw [List.pairwise_map]
        refine List.Pairwise.imp_of_mem ?_ hm.1
        intro p q hp hq hlt bt bu hbt hbu hgt
        obtain ⟨j, bk, hj, hbk, hkey⟩ := hform p hp
        obtain ⟨j2, bk2, hj2, hbk2, hkey2⟩ := hform q hq
        have hbteq : bt = bk := by
          rw [hbt] at hbk
          injection hbk
        have hbueq : bu = bk2 := by
          rw [hbu] at hbk2
          injection hbk2
        have hlen1 : bk.length = is.length := optionMapList_length _ is bk hbk
        have hlen2 : bk2.length = is.length := optionMapList_length _ is bk2 hbk2
        rw [hkey, hkey2, tupleCmp_concat _ _ bk bk2 (by omega)] at hlt
        rw [hbteq, hbueq] at hgt
        rw [hgt] at hlt
        have hcontra : Ordering.gt = Ordering.lt := hlt
        cases hcontra
      obtain ⟨st2, hb2, hm2⟩ := buildStore_sorted_run is (scanAll st1) 0 []
        hall hpair (by intro p hp; cases hp)
      refine ⟨st2, hb2, ?_⟩
      show st2.map Prod.snd = scanAll st1
      rw [hm2]
      rfl

/-- C8 witness: re-sorting the concrete three-row result changes
nothing. -/
theorem sort_and_collect_idempotent_witness :
    ∃ st2, sort_and_collect
        (scanAll
          [([DataValue.IntV 0, .Rev (.IntV 5), .IntV 2], [DataValue.IntV 0, .IntV 5]),
           ([DataValue.IntV 1, .Rev (.IntV 3), .IntV 1], [DataValue.IntV 1, .IntV 3]),
           ([DataValue.IntV 1, .Rev (.IntV 2), .IntV 0], [DataValue.IntV 1, .IntV 2])])
        [("a", .Asc), ("b", .Dsc)] ["a", "b"] = some st2 ∧
      scanAll st2 = scanAll
        [([DataValue.IntV 0, .Rev (.IntV 5), .IntV 2], [DataValue.IntV 0, .IntV 5]),
         ([DataValue.IntV 1, .Rev (.IntV 3), .IntV 1], [DataValue.IntV 1, .IntV 3]),
         ([DataValue.IntV 1, .Rev (.IntV 2), .IntV 0], [DataValue.IntV 1, .IntV 2])] :=
  sort_and_collect_idempotent
    [[DataValue.IntV 1, .IntV 2], [DataValue.IntV 1, .IntV 3],
     [DataValue.IntV 0, .IntV 5]]
    [("a", .Asc), ("b", .Dsc)] ["a", "b"] _ rfl

/-! Lemmas about the head-index lookup. -/

theorem exists_zip_fst : ∀ (l1 : List Symbol) (l2 : List Nat) (k : Symbol),
    k ∈ l1 → l1.length ≤ l2.length → ∃ p ∈ l1.zip l2, p.1 = k := by
  intro l1
  induction l1 with
  | nil => intro l2 k h _; cases h
  | cons a l ih =>
      intro l2 k h hlen
      cases l2 with
      | nil => simp at hlen
      | cons b l2 =>
          rcases List.mem_cons.mp h with h1 | h2
          · exact ⟨(a, b), by simp, h1.symm⟩
          · obtain ⟨p, hp, hpk⟩ := ih l2 k h2 (by simpa using hlen)
            exact ⟨p, by simp [hp], hpk⟩

theorem headIndex_isSome_of_mem (head : List Symbol) (k : Symbol) (h : k ∈ head) :
    ∃ i, headIndex head k = some i := by
  obtain ⟨p, hp, hpk⟩ := exists_zip_fst head (List.range head.length) k h
    (by simp)
  have hmemf : p ∈ (head.zip (List.range head.length)).filter
      (fun q => q.1 = k) := List.mem_filter.mpr ⟨hp, by simp [hpk]⟩
  cases hg : ((head.zip (List.range head.length)).filter
      (fun q => q.1 = k)).getLast? with
  | none =>
      have hne := List.ne_nil_of_mem hmemf
      have h2 : (((head.zip (List.range head.length)).filter
          (fun q => q.1 = k)).getLast?).isSome = true :=
        List.getLast?_isSome.mpr hne
      rw [hg] at h2
      cases h2
  | some q =>
      refine ⟨q.2, ?_⟩
      unfold headIndex
      rw [hg]
      rfl

theorem headIndex_eq_none (head : List Symbol) (k : Symbol) (h : k ∉ head) :
    headIndex head k = none := by
  unfold headIndex
  have hfil : (head.zip (List.range head.length)).filter (fun q => q.1 = k) = [] := by
    rw [List.filter_eq_nil_iff]
    intro p hp hpk
    have hk2 : p.1 = k := by simpa using hpk
    have hmem : p.1 ∈ head := by
      obtain ⟨x, y⟩ := p
      exact (List.of_mem_zip hp).1
    rw [hk2] at hmem
    exact h hmem
  rw [hfil]
  rfl

theorem optionMapList_cons_none_left {A B : Type} (f : A → Option B) (a : A)
    (l : List A) (h : f a = none) : optionMapList f (a :: l) = none := by
  unfold optionMapList
  rw [h]

theorem optionMapList_cons_none_right {A B : Type} (f : A → Option B) (a : A)
    (l : List A) (h : optionMapList f l = none) :
    optionMapList f (a :: l) = none := by
  unfold optionMapList
  cases hf : f a with
  | none => rfl
  | some b => rw [h]

theorem optionMapList_cons_some {A B : Type} (f : A → Option B) (a : A)
    (l : List A) (b : B) (bs : List B) (hf : f a = some b)
    (hl : optionMapList f l = some bs) :
    optionMapList f (a :: l) = some (b :: bs) := by
  unfold optionMapList
  rw [hf, hl]

theorem mkIdxSorters_none_of_bad :
    ∀ (sorters : List (Symbol × SortDir)) (head : List Symbol)
      (p : Symbol × SortDir), p ∈ sorters → p.1 ∉ head →
      mkIdxSorters sorters head = none := by
  intro sorters
  induction sorters with
  | nil => intro head p hp _; cases hp
  | cons q rest ih =>
      intro head p hp hbad
      rcases List.mem_cons.mp hp with h1 | h2
      · subst h1
        exact optionMapList_cons_none_left _ _ _
          (by rw [headIndex_eq_none head p.1 hbad]; rfl)
      · exact optionMapList_cons_none_right _ _ _ (ih head p h2 hbad)

theorem mkIdxSorters_some_of_good :
    ∀ (sorters : List (Symbol × SortDir)) (head : List Symbol),
      (∀ p ∈ sorters, p.1 ∈ head) →
      ∃ l, mkIdxSorters sorters head = some l := by
  intro sorters
  induction sorters with
  | nil => intro head _; exact ⟨[], rfl⟩
  | cons q rest ih =>
      intro head h
      obtain ⟨i, hi⟩ := headIndex_isSome_of_mem head q.1 (h q (by simp))
      obtain ⟨l, hl⟩ := ih head (fun p hp => h p (List.mem_cons.mpr (.inr hp)))
      exact ⟨(i, q.2) :: l,
        optionMapList_cons_some _ _ _ _ _ (by rw [hi]; rfl) hl⟩

/-- C10: `sort_and_collect` requires every sorter symbol to occur in
`head`: under that precondition the `head_indices[k]` lookup succeeds
for every sorter (the panic branch is unreachable) and the sorter
resolution succeeds; for a sorter symbol absent from `head` the
function panics (modelled as `none`) instead of returning an error
result. -/
theorem sort_and_collect_head_precondition (original : List Tuple)
    (sorters : List (Symbol × SortDir)) (head : List Symbol) :
    ((∀ p ∈ sorters, p.1 ∈ head) →
      (∀ p ∈ sorters, ∃ i, headIndex head p.1 = some i) ∧
        ∃ l, mkIdxSorters sorters head = some l)
    ∧ (∀ p ∈ sorters, p.1 ∉ head →
        sort_and_collect original sorters head = none) := by
  constructor
  · intro h
    exact ⟨fun p hp => headIndex_isSome_of_mem head p.1 (h p hp),
      mkIdxSorters_some_of_good sorters head h⟩
  · intro p hp hbad
    unfold sort_and_collect
    rw [mkIdxSorters_none_of_bad sorters head p hp hbad]

/-- C10 witness: a sorter naming a column absent from `head` makes the
whole call panic (`none`), while the present-column lookup succeeds. -/
theorem sort_and_collect_head_precondition_witness :
    sort_and_collect [[DataValue.IntV 4]] [("a", SortDir.Asc)] ["b"] = none :=
  (sort_and_collect_head_precondition [[DataValue.IntV 4]]
    [("a", SortDir.Asc)] ["b"]).2 ("a", SortDir.Asc) (by simp) (by simp)

end Cozo
